import Mathlib

/-!
# Verification of the NDSS agenda app's logic core (`src/app.js`)

A shallow embedding of the starred-set synchronizer and the interval
conflict detector of `app.js`, with theorems settling the specification
claims about them.

Modelling conventions:

* JavaScript strings are `List Char` (written `JStr`).  JavaScript string
  values in this app are well-formed Unicode (they come from JSON data and
  literals), so `Char` sequences are a faithful carrier.
* JSON values (`JSON.parse` results) are the inductive `Jval`.  Numbers are
  kept as their source token; no claim compares two numerically-equal but
  textually-distinct numbers, so token equality is a faithful fragment.
* The `Number(...)` coercion used by `toMinutes` is modelled by `jsNumber`,
  a fragment of ECMAScript ToNumber covering the empty string (which yields
  0) and optionally-signed decimal integer strings; every other string is
  mapped to `none` (NaN).  All inputs appearing in theorems below are
  inside this fragment.
* The browser's `localStorage` slot for the app's single key and the URL
  fragment's single `a=` parameter are modelled as `Option JStr` fields of
  a `World`; `history.replaceState` to the bare URL is `none`.
  `URLSearchParams` extraction of the one parameter the app itself writes
  is taken as the modelling boundary: `readHashStarred` receives the raw
  value of the `a` parameter (or `none` when the fragment or parameter is
  absent).
* Storage write failures (quota, private mode) are environmental and are
  swallowed by the source's `try/catch`; the model's store always accepts
  writes.
-/

/-- JavaScript strings, modelled as lists of Unicode scalar values. -/
abbrev JStr : Type := List Char

/-- One scheduled program entry, as used by the conflict detector
(`session.session_id`, `session.start`, `session.end` in `app.js`).
Missing (`undefined`) time fields are `none`. -/
structure Session : Type where
  session_id : JStr
  start : Option JStr
  «end» : Option JStr
  deriving DecidableEq

/-! ## The `Number(...)` coercion fragment -/

/-- ASCII decimal digit, by code point. -/
def isDig (c : Char) : Bool := decide (48 ≤ c.toNat ∧ c.toNat ≤ 57)

/-- Value of a non-empty all-ASCII-digit string, `none` otherwise. -/
def digitsVal : JStr → Option Nat
  | [] => none
  | l =>
    if l.all isDig then
      some (l.foldl (fun acc c => acc * 10 + (c.toNat - 48)) 0)
    else none

/-- Fragment model of ECMAScript `Number(string)`: `""` coerces to `0`,
optionally-`-`-signed decimal integer strings to their value, and every
other string to NaN (`none`).  (Fractional, exponent, hex, whitespace and
infinity forms are outside the fragment; no theorem below touches them.) -/
def jsNumber : JStr → Option Int
  | [] => some 0
  | '-' :: rest => (digitsVal rest).map (fun n => -(n : Int))
  | l => (digitsVal l).map (fun n => (n : Int))

/-- `String.prototype.split` with a single-character separator:
`"".split(sep)` is `[""]`, and separators delimit (possibly empty) fields. -/
def splitOnChar (sep : Char) : JStr → List JStr
  | [] => [[]]
  | c :: rest =>
    if c = sep then [] :: splitOnChar sep rest
    else
      match splitOnChar sep rest with
      | g :: gs => (c :: g) :: gs
      | [] => [[c]]

/-! ## Time parsing and the conflict detector -/

/-- `toMinutes` from `app.js`: reject the empty string and strings without
a colon, split on `:`, coerce the first two fields with `Number`, and
return `h * 60 + m` unless either coercion is NaN. -/
def toMinutes (s : JStr) : Option Int :=
  if s = [] ∨ ':' ∉ s then none
  else
    match splitOnChar ':' s with
    | h :: m :: _ =>
      match jsNumber h, jsNumber m with
      | some hv, some mv => some (hv * 60 + mv)
      | _, _ => none
    | _ => none

/-- `toMinutes` applied to a possibly-missing field (`toMinutes(undefined)`
takes the `!timeStr` early return). -/
def toMinutesOpt : Option JStr → Option Int
  | none => none
  | some s => toMinutes s

/-- `overlaps` from `app.js`: `false` unless all four times parse; `false`
for point-in-time sessions; otherwise the half-open interval test
`aStart < bEnd && bStart < aEnd`. -/
def overlaps (a b : Session) : Bool :=
  match toMinutesOpt a.start, toMinutesOpt a.«end»,
        toMinutesOpt b.start, toMinutesOpt b.«end» with
  | some aStart, some aEnd, some bStart, some bEnd =>
    if aStart = aEnd ∨ bStart = bEnd then false
    else decide (aStart < bEnd) && decide (bStart < aEnd)
  | _, _, _, _ => false

/-- `Set.prototype.add` on an insertion-ordered set of strings. -/
def jsSetAddStr (l : List JStr) (x : JStr) : List JStr :=
  if x ∈ l then l else l ++ [x]

/-- The double loop of `findConflicts`: for each session `s`, compare it
with every later session, adding both ids of an overlapping pair. -/
def findConflictsFrom : List Session → List JStr → List JStr
  | [], acc => acc
  | s :: rest, acc =>
    findConflictsFrom rest
      (rest.foldl
        (fun a t =>
          if overlaps s t then jsSetAddStr (jsSetAddStr a s.session_id) t.session_id
          else a)
        acc)

/-- `findConflicts` from `app.js`: the set of session ids participating in
at least one pairwise overlap, in insertion order. -/
def findConflicts (sessions : List Session) : List JStr :=
  findConflictsFrom sessions []

/-! ## The spec's notion of a valid clock string -/

/-- Written from the spec's words, to compare with `toMinutes`: the string
matches `"H:MM"` or `"HH:MM"` as a 24-hour time. -/
def validHMM : JStr → Bool
  | [h1, c, m1, m2] =>
    c = ':' && isDig h1 && isDig m1 && isDig m2 &&
      decide ((m1.toNat - 48) * 10 + (m2.toNat - 48) < 60)
  | [h1, h2, c, m1, m2] =>
    c = ':' && isDig h1 && isDig h2 && isDig m1 && isDig m2 &&
      decide ((h1.toNat - 48) * 10 + (h2.toNat - 48) < 24) &&
      decide ((m1.toNat - 48) * 10 + (m2.toNat - 48) < 60)
  | _ => false

/-- The hour denoted by a `validHMM` string (0 otherwise). -/
def hmmHour : JStr → Int
  | [h1, _, _, _] => (h1.toNat : Int) - 48
  | [h1, h2, _, _, _] => ((h1.toNat : Int) - 48) * 10 + ((h2.toNat : Int) - 48)
  | _ => 0

/-- The minute denoted by a `validHMM` string (0 otherwise). -/
def hmmMin : JStr → Int
  | [_, _, m1, m2] => ((m1.toNat : Int) - 48) * 10 + ((m2.toNat : Int) - 48)
  | [_, _, _, m1, m2] => ((m1.toNat : Int) - 48) * 10 + ((m2.toNat : Int) - 48)
  | _ => 0

/-! ## JSON values

`Jval` is the image of `JSON.parse`: numbers keep their source token. -/

inductive Jval : Type where
  | jnull : Jval
  | jbool : Bool → Jval
  | jnum : List Char → Jval
  | jstr : JStr → Jval
  | jarr : List Jval → Jval
  | jobj : List (JStr × Jval) → Jval

mutual

/-- Structural equality of JSON values, modelling the SameValueZero
comparison `Set` uses on them (object identity is collapsed to structure;
no claim distinguishes two structurally equal objects). -/
def Jval.beq : Jval → Jval → Bool
  | .jnull, .jnull => true
  | .jbool a, .jbool b => a == b
  | .jnum a, .jnum b => a == b
  | .jstr a, .jstr b => a == b
  | .jarr xs, .jarr ys => Jval.beqList xs ys
  | .jobj xs, .jobj ys => Jval.beqObj xs ys
  | _, _ => false

/-- Position-by-position comparison of value lists, for `Jval.beq`. -/
def Jval.beqList : List Jval → List Jval → Bool
  | [], [] => true
  | x :: xs, y :: ys => Jval.beq x y && Jval.beqList xs ys
  | _, _ => false

/-- Field-by-field comparison of object field lists, for `Jval.beq`. -/
def Jval.beqObj : List (JStr × Jval) → List (JStr × Jval) → Bool
  | [], [] => true
  | (k1, v1) :: xs, (k2, v2) :: ys => k1 == k2 && Jval.beq v1 v2 && Jval.beqObj xs ys
  | _, _ => false

end

/-- `'\x7b'`, written by code point to keep brace characters out of
string literals. -/
def openBrace : Char := Char.ofNat 123

/-- `'\x7d'`. -/
def closeBrace : Char := Char.ofNat 125

/-- Join strings with commas (the `Array.prototype.join(",")` shape used
by JavaScript's default `String(...)` conversion of arrays). -/
def joinCommas : List JStr → JStr
  | [] => []
  | [s] => s
  | s :: rest => s ++ ',' :: joinCommas rest

mutual

/-- ECMAScript `String(x)` on the values above (the conversion the default
`Array.prototype.sort` comparator applies): strings are themselves,
numbers keep their token (a faithful fragment, since the app only sorts
strings), arrays join their members with commas, objects print as
`[object Object]`. -/
def Jval.toStr : Jval → JStr
  | .jnull => "null".data
  | .jbool true => "true".data
  | .jbool false => "false".data
  | .jnum t => t
  | .jstr s => s
  | .jarr xs => joinCommas (Jval.toStrList xs)
  | .jobj _ => "[object Object]".data

/-- `Jval.toStr` mapped over a list, in the same mutual recursion. -/
def Jval.toStrList : List Jval → List JStr
  | [] => []
  | x :: xs => Jval.toStr x :: Jval.toStrList xs

end

/-! ## `JSON.stringify` -/

/-- Lowercase hexadecimal digit. -/
def hexDigit (n : Nat) : Char := Char.ofNat (if n < 10 then 48 + n else 87 + n)

/-- `JSON.stringify`'s escaping of one string character. -/
def qchar (c : Char) : JStr :=
  if c = '"' then ['\\', '"']
  else if c = '\\' then ['\\', '\\']
  else if c.toNat < 32 then
    match c.toNat with
    | 8 => ['\\', 'b']
    | 9 => ['\\', 't']
    | 10 => ['\\', 'n']
    | 12 => ['\\', 'f']
    | 13 => ['\\', 'r']
    | n => ['\\', 'u', '0', '0', hexDigit (n / 16), hexDigit (n % 16)]
  else [c]

/-- Escaped body of a JSON string literal. -/
def quoteBody : JStr → JStr
  | [] => []
  | c :: cs => qchar c ++ quoteBody cs

/-- A JSON string literal. -/
def quoteStr (s : JStr) : JStr := '"' :: quoteBody s ++ ['"']

mutual

/-- `JSON.stringify` (no spacing argument, as the app calls it).  Number
values re-emit their token: faithful for every value the app stringifies
(arrays of strings and re-encoded parse results). -/
def jsonStringify : Jval → JStr
  | .jnull => "null".data
  | .jbool true => "true".data
  | .jbool false => "false".data
  | .jnum t => t
  | .jstr s => quoteStr s
  | .jarr xs => '[' :: jsonStringifyElems xs ++ [']']
  | .jobj fs => openBrace :: jsonStringifyFields fs ++ [closeBrace]

/-- Comma-separated stringified array elements. -/
def jsonStringifyElems : List Jval → JStr
  | [] => []
  | [x] => jsonStringify x
  | x :: xs => jsonStringify x ++ ',' :: jsonStringifyElems xs

/-- Comma-separated stringified object fields. -/
def jsonStringifyFields : List (JStr × Jval) → JStr
  | [] => []
  | [(k, v)] => quoteStr k ++ ':' :: jsonStringify v
  | (k, v) :: fs => quoteStr k ++ ':' :: jsonStringify v ++ ',' :: jsonStringifyFields fs

end

/-! ## `JSON.parse` -/

/-- JSON insignificant whitespace. -/
def isJsonWs (c : Char) : Bool := c = ' ' || c = '\t' || c = '\n' || c = '\r'

/-- Skip insignificant whitespace. -/
def skipWs (s : JStr) : JStr := s.dropWhile isJsonWs

/-- Value of a hexadecimal digit character. -/
def hexVal (c : Char) : Option Nat :=
  if 48 ≤ c.toNat ∧ c.toNat ≤ 57 then some (c.toNat - 48)
  else if 97 ≤ c.toNat ∧ c.toNat ≤ 102 then some (c.toNat - 87)
  else if 65 ≤ c.toNat ∧ c.toNat ≤ 70 then some (c.toNat - 55)
  else none

/-- Four hexadecimal digits, as in a `\uXXXX` escape. -/
def parseHex4 : JStr → Option (Nat × JStr)
  | c1 :: c2 :: c3 :: c4 :: rest =>
    match hexVal c1, hexVal c2, hexVal c3, hexVal c4 with
    | some a, some b, some c, some d => some (((a * 16 + b) * 16 + c) * 16 + d, rest)
    | _, _, _, _ => none
  | _ => none

/-- Body of a JSON string literal after the opening quote, returning the
decoded characters and the input after the closing quote.  Surrogate
pairs written as two `\u` escapes are combined, as `JSON.parse` does; an
unpaired surrogate escape is rejected (`JSON.parse` would produce a lone
surrogate, which the `Char` carrier cannot hold — no claim reaches such
input).  The fuel only bounds recursion depth; each step consumes at
least one input character, so `length + 1` fuel never runs out. -/
def parseStringBody : Nat → JStr → Option (JStr × JStr)
  | 0, _ => none
  | _ + 1, [] => none
  | fuel + 1, c :: rest =>
    if c = '"' then some ([], rest)
    else if c = '\\' then
      match rest with
      | [] => none
      | e :: rest2 =>
        if e = '"' then (parseStringBody fuel rest2).map (fun p => ('"' :: p.1, p.2))
        else if e = '\\' then (parseStringBody fuel rest2).map (fun p => ('\\' :: p.1, p.2))
        else if e = '/' then (parseStringBody fuel rest2).map (fun p => ('/' :: p.1, p.2))
        else if e = 'b' then (parseStringBody fuel rest2).map (fun p => (Char.ofNat 8 :: p.1, p.2))
        else if e = 'f' then (parseStringBody fuel rest2).map (fun p => (Char.ofNat 12 :: p.1, p.2))
        else if e = 'n' then (parseStringBody fuel rest2).map (fun p => ('\n' :: p.1, p.2))
        else if e = 'r' then (parseStringBody fuel rest2).map (fun p => (Char.ofNat 13 :: p.1, p.2))
        else if e = 't' then (parseStringBody fuel rest2).map (fun p => ('\t' :: p.1, p.2))
        else if e = 'u' then
          match parseHex4 rest2 with
          | none => none
          | some (n, rest3) =>
            if n < 55296 ∨ 57344 ≤ n then
              (parseStringBody fuel rest3).map (fun p => (Char.ofNat n :: p.1, p.2))
            else if n < 56320 then
              match rest3 with
              | b1 :: u1 :: rest4 =>
                if b1 = '\\' ∧ u1 = 'u' then
                  match parseHex4 rest4 with
                  | some (m, rest5) =>
                    if 56320 ≤ m ∧ m < 57344 then
                      (parseStringBody fuel rest5).map
                        (fun p => (Char.ofNat (65536 + (n - 55296) * 1024 + (m - 56320)) :: p.1, p.2))
                    else none
                  | none => none
                else none
              | _ => none
            else none
        else none
    else if c.toNat < 32 then none
    else (parseStringBody fuel rest).map (fun p => (c :: p.1, p.2))

/-- Longest digit run at the front. -/
def takeDigits (s : JStr) : JStr × JStr := (s.takeWhile isDig, s.dropWhile isDig)

/-- The fraction-and-exponent tail of a JSON number token. -/
def parseNumTail (s : JStr) : Option (JStr × JStr) :=
  let fracP : Option (JStr × JStr) :=
    match s with
    | '.' :: r =>
      match takeDigits r with
      | ([], _) => none
      | (ds, r2) => some ('.' :: ds, r2)
    | _ => some ([], s)
  match fracP with
  | none => none
  | some (frac, s2) =>
    match s2 with
    | c :: r =>
      if c = 'e' ∨ c = 'E' then
        let (sign, r2) : JStr × JStr :=
          match r with
          | '+' :: r' => (['+'], r')
          | '-' :: r' => (['-'], r')
          | _ => ([], r)
        match takeDigits r2 with
        | ([], _) => none
        | (ds, r3) => some (frac ++ c :: sign ++ ds, r3)
      else some (frac, s2)
    | [] => some (frac, s2)

/-- A JSON number token (strict JSON grammar: no leading zeros, no bare
dot), returned as its source characters. -/
def parseNumberTok (s : JStr) : Option (JStr × JStr) :=
  let (neg, s1) : JStr × JStr :=
    match s with
    | '-' :: r => (['-'], r)
    | _ => ([], s)
  match s1 with
  | '0' :: r =>
    match parseNumTail r with
    | some (tail, r2) => some (neg ++ '0' :: tail, r2)
    | none => none
  | c :: r =>
    if isDig c then
      match takeDigits r with
      | (ds, r2) =>
        match parseNumTail r2 with
        | some (tail, r3) => some (neg ++ c :: ds ++ tail, r3)
        | none => none
    else none
  | [] => none

mutual

/-- One JSON value and the remaining input.  The fuel only bounds
recursion depth; every nested call is made after consuming at least one
character, so `length + 1` fuel never runs out. -/
def parseValue : Nat → JStr → Option (Jval × JStr)
  | 0, _ => none
  | fuel + 1, s =>
    match skipWs s with
    | [] => none
    | c :: rest =>
      if c = '"' then
        (parseStringBody (rest.length + 1) rest).map (fun p => (Jval.jstr p.1, p.2))
      else if c = '[' then
        match skipWs rest with
        | ']' :: r2 => some (Jval.jarr [], r2)
        | _ => (parseElems fuel rest).map (fun p => (Jval.jarr p.1, p.2))
      else if c = openBrace then
        match skipWs rest with
        | c2 :: r2 =>
          if c2 = closeBrace then some (Jval.jobj [], r2)
          else (parseMembers fuel rest).map (fun p => (Jval.jobj p.1, p.2))
        | [] => none
      else if c = 'n' then
        match rest with
        | 'u' :: 'l' :: 'l' :: r => some (Jval.jnull, r)
        | _ => none
      else if c = 't' then
        match rest with
        | 'r' :: 'u' :: 'e' :: r => some (Jval.jbool true, r)
        | _ => none
      else if c = 'f' then
        match rest with
        | 'a' :: 'l' :: 's' :: 'e' :: r => some (Jval.jbool false, r)
        | _ => none
      else (parseNumberTok (c :: rest)).map (fun p => (Jval.jnum p.1, p.2))

/-- Array elements after `[`, including the closing `]`. -/
def parseElems : Nat → JStr → Option (List Jval × JStr)
  | 0, _ => none
  | fuel + 1, s =>
    match parseValue fuel s with
    | none => none
    | some (v, r) =>
      match skipWs r with
      | ',' :: r2 => (parseElems fuel r2).map (fun p => (v :: p.1, p.2))
      | ']' :: r2 => some ([v], r2)
      | _ => none

/-- Object members after the opening brace, including the closing brace. -/
def parseMembers : Nat → JStr → Option (List (JStr × Jval) × JStr)
  | 0, _ => none
  | fuel + 1, s =>
    match skipWs s with
    | '"' :: r =>
      match parseStringBody (r.length + 1) r with
      | none => none
      | some (k, r2) =>
        match skipWs r2 with
        | ':' :: r3 =>
          match parseValue fuel r3 with
          | none => none
          | some (v, r4) =>
            match skipWs r4 with
            | ',' :: r5 => (parseMembers fuel r5).map (fun p => ((k, v) :: p.1, p.2))
            | c :: r5 => if c = closeBrace then some ([(k, v)], r5) else none
            | [] => none
        | _ => none
    | _ => none

end

/-- `JSON.parse`: one value, then only whitespace. -/
def jsonParse (s : JStr) : Option Jval :=
  match parseValue (s.length + 1) s with
  | some (v, r) => if skipWs r = [] then some v else none
  | none => none

/-! ## base64 (`btoa` / `atob`) -/

/-- The standard base64 alphabet. -/
def b64chars : JStr :=
  "ABCDEFGHIJKLMNOPQRSTUVWXYZabcdefghijklmnopqrstuvwxyz0123456789+/".data

/-- Character for a 6-bit group. -/
def b64enc (i : Nat) : Char := b64chars.getD i 'A'

/-- `btoa` on a byte list (the app only passes byte values below 256,
produced by UTF-8 encoding). -/
def btoaModel : List Nat → JStr
  | [] => []
  | [a] => [b64enc (a / 4), b64enc (a % 4 * 16), '=', '=']
  | [a, b] => [b64enc (a / 4), b64enc (a % 4 * 16 + b / 16), b64enc (b % 16 * 4), '=']
  | a :: b :: c :: rest =>
    b64enc (a / 4) :: b64enc (a % 4 * 16 + b / 16) ::
      b64enc (b % 16 * 4 + c / 64) :: b64enc (c % 64) :: btoaModel rest

/-- `replace(/=+$/, '')`: strip trailing padding. -/
def stripEq (s : JStr) : JStr := (s.reverse.dropWhile (· = '=')).reverse

/-- Value of a base64 alphabet character. -/
def b64val (c : Char) : Option Nat :=
  if 65 ≤ c.toNat ∧ c.toNat ≤ 90 then some (c.toNat - 65)
  else if 97 ≤ c.toNat ∧ c.toNat ≤ 122 then some (c.toNat - 97 + 26)
  else if 48 ≤ c.toNat ∧ c.toNat ≤ 57 then some (c.toNat - 48 + 52)
  else if c = '+' then some 62
  else if c = '/' then some 63
  else none

/-- ASCII whitespace, which forgiving-base64 decoding removes. -/
def isB64Ws (c : Char) : Bool :=
  c.toNat = 32 || c.toNat = 9 || c.toNat = 10 || c.toNat = 12 || c.toNat = 13

/-- Remove up to two trailing `=`. -/
def dropTrailPad (s : JStr) : JStr :=
  match s.reverse with
  | '=' :: '=' :: r => r.reverse
  | '=' :: r => r.reverse
  | _ => s

/-- Map every character through the alphabet, failing on a foreign one. -/
def b64vals : JStr → Option (List Nat)
  | [] => some []
  | c :: r =>
    match b64val c, b64vals r with
    | some v, some vs => some (v :: vs)
    | _, _ => none

/-- Reassemble bytes from 6-bit groups; a trailing group of two or three
characters contributes one or two bytes (leftover bits discarded), and a
single leftover character is an error. -/
def b64groups : List Nat → Option (List Nat)
  | [] => some []
  | [_] => none
  | [a, b] => some [a * 4 + b / 16]
  | [a, b, c] => some [a * 4 + b / 16, b % 16 * 16 + c / 4]
  | a :: b :: c :: d :: rest =>
    (b64groups rest).map
      (fun bs => (a * 4 + b / 16) :: (b % 16 * 16 + c / 4) :: (c % 4 * 64 + d) :: bs)

/-- `atob` (WHATWG forgiving-base64 decode): strip ASCII whitespace,
remove canonical padding, reject a length-1 remainder or foreign
characters, then reassemble bytes. -/
def atobModel (s : JStr) : Option (List Nat) :=
  let s1 := s.filter (fun c => !isB64Ws c)
  let s2 := if s1.length % 4 = 0 then dropTrailPad s1 else s1
  if s2.length % 4 = 1 then none
  else
    match b64vals s2 with
    | none => none
    | some vs => b64groups vs

/-- The unpadded base64 encoding: what `btoa` + padding-strip produce. -/
def b64clean : List Nat → JStr
  | [] => []
  | [a] => [b64enc (a / 4), b64enc (a % 4 * 16)]
  | [a, b] => [b64enc (a / 4), b64enc (a % 4 * 16 + b / 16), b64enc (b % 16 * 4)]
  | a :: b :: c :: rest =>
    b64enc (a / 4) :: b64enc (a % 4 * 16 + b / 16) ::
      b64enc (b % 16 * 4 + c / 64) :: b64enc (c % 64) :: b64clean rest

/-! ## UTF-8 (`unescape(encodeURIComponent(s))` and its inverse) -/

/-- UTF-8 bytes of one scalar value. -/
def utf8EncodeChar (c : Char) : List Nat :=
  let n := c.toNat
  if n < 128 then [n]
  else if n < 2048 then [192 + n / 64, 128 + n % 64]
  else if n < 65536 then [224 + n / 4096, 128 + n / 64 % 64, 128 + n % 64]
  else [240 + n / 262144, 128 + n / 4096 % 64, 128 + n / 64 % 64, 128 + n % 64]

/-- UTF-8 bytes of a string (what `unescape(encodeURIComponent(s))`
presents to `btoa`, one byte per character). -/
def utf8Encode : JStr → List Nat
  | [] => []
  | c :: cs => utf8EncodeChar c ++ utf8Encode cs

/-- UTF-8 continuation byte. -/
def isCont (b : Nat) : Bool := decide (128 ≤ b ∧ b ≤ 191)

/-- Decode one UTF-8 sequence starting with byte `b1`: the character and
the remaining bytes.  Overlong forms, surrogate code points, values
beyond U+10FFFF and truncated sequences fail. -/
def utf8DecodeAux (b1 : Nat) (rest : List Nat) : Option (Char × List Nat) :=
  if b1 < 128 then some (Char.ofNat b1, rest)
  else if 194 ≤ b1 ∧ b1 ≤ 223 then
    match rest with
    | b2 :: rest2 =>
      if isCont b2 then some (Char.ofNat ((b1 - 192) * 64 + (b2 - 128)), rest2)
      else none
    | [] => none
  else if 224 ≤ b1 ∧ b1 ≤ 239 then
    match rest with
    | b2 :: b3 :: rest2 =>
      if (if b1 = 224 then decide (160 ≤ b2 ∧ b2 ≤ 191)
          else if b1 = 237 then decide (128 ≤ b2 ∧ b2 ≤ 159)
          else isCont b2) && isCont b3 then
        some (Char.ofNat ((b1 - 224) * 4096 + (b2 - 128) * 64 + (b3 - 128)), rest2)
      else none
    | _ => none
  else if 240 ≤ b1 ∧ b1 ≤ 244 then
    match rest with
    | b2 :: b3 :: b4 :: rest2 =>
      if (if b1 = 240 then decide (144 ≤ b2 ∧ b2 ≤ 191)
          else if b1 = 244 then decide (128 ≤ b2 ∧ b2 ≤ 143)
          else isCont b2) && isCont b3 && isCont b4 then
        some (Char.ofNat ((b1 - 240) * 262144 + (b2 - 128) * 4096 +
          (b3 - 128) * 64 + (b4 - 128)), rest2)
      else none
    | _ => none
  else none

/-- Decode a byte list sequence by sequence.  The fuel only bounds
recursion depth; each step consumes at least the lead byte, so
`length` fuel never runs out. -/
def utf8DecodeGo : Nat → List Nat → Option JStr
  | _, [] => some []
  | 0, _ :: _ => none
  | fuel + 1, b1 :: rest =>
    match utf8DecodeAux b1 rest with
    | some (c, rest2) => (utf8DecodeGo fuel rest2).map (c :: ·)
    | none => none

/-- Strict UTF-8 decoding, as `decodeURIComponent(escape(bytes))`
performs it (the source catches the resulting `URIError` on malformed
input). -/
def utf8Decode (bytes : List Nat) : Option JStr := utf8DecodeGo bytes.length bytes

/-! ## URL-safe alphabet substitution -/

/-- `replace(/\+/g, '-').replace(/\//g, '_')`, per character. -/
def toUrlChar (c : Char) : Char :=
  if c = '+' then '-' else if c = '/' then '_' else c

/-- The inverse substitution (dash back to plus, underscore back to
slash), per character. -/
def fromUrlChar (c : Char) : Char :=
  if c = '-' then '+' else if c = '_' then '/' else c

/-! ## Sorting (`Array.prototype.sort`, default comparator) -/

/-- UTF-16 code units of one character. -/
def utf16Units (c : Char) : List Nat :=
  let n := c.toNat
  if n < 65536 then [n]
  else [55296 + (n - 65536) / 1024, 56320 + (n - 65536) % 1024]

/-- UTF-16 code units of a string: the sequence JavaScript's `<` on
strings compares lexicographically. -/
def utf16Key : JStr → List Nat
  | [] => []
  | c :: cs => utf16Units c ++ utf16Key cs

/-- Lexicographic less-or-equal on code-unit sequences. -/
def natListLe : List Nat → List Nat → Bool
  | [], _ => true
  | _ :: _, [] => false
  | a :: as_, b :: bs =>
    if a < b then true else if b < a then false else natListLe as_ bs

/-- The default sort order: `String(x)` compared by UTF-16 code units. -/
def jvalLe (x y : Jval) : Bool := natListLe (utf16Key x.toStr) (utf16Key y.toStr)

/-- Stable insertion of an element into a sorted list: it lands before
the first element it compares less-or-equal to. -/
def insertSorted (x : Jval) : List Jval → List Jval
  | [] => [x]
  | y :: ys => if jvalLe x y then x :: y :: ys else y :: insertSorted x ys

/-- `[...ids].sort()` — ECMAScript's sort is a stable comparison sort
(stability required since ES2019), modelled as stable insertion sort,
which produces the same list. -/
def jsSortJ : List Jval → List Jval
  | [] => []
  | x :: xs => insertSorted x (jsSortJ xs)

/-! ## The encoding helpers of `app.js` -/

/-- `encodeStarred`: the empty array encodes to the empty string; any
other array is sorted, stringified, UTF-8 encoded, base64 encoded, made
URL-safe and stripped of padding. -/
def encodeStarredJ (ids : List Jval) : JStr :=
  if ids.length = 0 then []
  else stripEq ((btoaModel (utf8Encode (jsonStringify (.jarr (jsSortJ ids))))).map toUrlChar)

/-- `decodeStarred`: `[]` for the empty string; otherwise undo the
URL-safe substitution, then `atob`, UTF-8 decode and `JSON.parse`; any
failure, or a parse result that is not an array, yields `[]`. -/
def decodeStarredJ (encoded : JStr) : List Jval :=
  if encoded = [] then []
  else
    match atobModel (encoded.map fromUrlChar) with
    | none => []
    | some bytes =>
      match utf8Decode bytes with
      | none => []
      | some json =>
        match jsonParse json with
        | some (.jarr xs) => xs
        | _ => []

/-! ## The three stores and the synchronizer -/

/-- The mutable state the synchronizer touches: the in-memory `starred`
set (insertion-ordered, as a JavaScript `Set`), the app's `localStorage`
slot, and the `a` parameter of the URL fragment (`none` when the URL is
bare). -/
structure World : Type where
  starred : List Jval
  lsSlot : Option JStr
  hashA : Option JStr

/-- `Set.prototype.has` (SameValueZero, via `Jval.beq`). -/
def jsHas (l : List Jval) (x : Jval) : Bool := l.any (fun y => Jval.beq x y)

/-- `Set.prototype.add`: append if absent. -/
def jsSetAdd (l : List Jval) (x : Jval) : List Jval :=
  if jsHas l x then l else l ++ [x]

/-- `Set.prototype.delete`: remove the element. -/
def jsSetDelete (l : List Jval) (x : Jval) : List Jval :=
  l.filter (fun y => !Jval.beq x y)

/-- `new Set(xs)`: insert in order, keeping first occurrences. -/
def jsSetOf (xs : List Jval) : List Jval := xs.foldl jsSetAdd []

/-- `loadStarredFromLS`: `[]` for an absent or empty slot, a parse
failure, or a parse result that is not an array. -/
def loadStarredFromLS (slot : Option JStr) : List Jval :=
  match slot with
  | none => []
  | some raw =>
    if raw = [] then []
    else
      match jsonParse raw with
      | some (.jarr xs) => xs
      | _ => []

/-- `saveStarredToLS`: store the stringified array (the model's store
always accepts the write; the source swallows storage failures). -/
def saveStarredToLS (ids : List Jval) (w : World) : World :=
  { w with lsSlot := some (jsonStringify (.jarr ids)) }

/-- `writeHash`: an empty array clears the fragment (`replaceState` to
the bare URL); otherwise the fragment's `a` parameter becomes the
encoding. -/
def writeHash (ids : List Jval) (w : World) : World :=
  if ids.length = 0 then { w with hashA := none }
  else { w with hashA := some (encodeStarredJ ids) }

/-- `persist`: spread the set to an array, write both stores. -/
def persist (w : World) : World :=
  writeHash w.starred (saveStarredToLS w.starred w)

/-- `toggleStar`: flip membership of the id, then persist. -/
def toggleStar (sid : JStr) (w : World) : World :=
  persist
    { w with
      starred :=
        if jsHas w.starred (.jstr sid) then jsSetDelete w.starred (.jstr sid)
        else jsSetAdd w.starred (.jstr sid) }

/-- `resetAgenda`'s state change once confirmed: clear the set, persist
(the confirmation dialog is UI, outside the model). -/
def resetAgendaStarred (w : World) : World :=
  persist { w with starred := [] }

/-- `readHashStarred`: `none` when the fragment or its `a` parameter is
absent or empty, else the decoded parameter. -/
def readHashStarred (hashA : Option JStr) : Option (List Jval) :=
  match hashA with
  | none => none
  | some enc => if enc = [] then none else some (decodeStarredJ enc)

/-- Step 2 of `init`: the reconciliation of the three stores.  A present,
non-empty decode of the hash becomes the canonical set and is written to
storage; otherwise the canonical set is read from storage and both
stores are left unchanged. -/
def initStarred (w : World) : World :=
  match readHashStarred w.hashA with
  | some fromHash =>
    if fromHash.length > 0 then
      { saveStarredToLS fromHash w with starred := jsSetOf fromHash }
    else { w with starred := jsSetOf (loadStarredFromLS w.lsSlot) }
  | none => { w with starred := jsSetOf (loadStarredFromLS w.lsSlot) }

/-! ## Concrete values used by witnesses -/

/-- Session A of the spec's concrete conflict case. -/
def sessA : Session := ⟨"A".data, some "09:00".data, some "10:00".data⟩

/-- Session B of the spec's concrete conflict case. -/
def sessB : Session := ⟨"B".data, some "09:30".data, some "10:30".data⟩

/-- Session C of the spec's concrete conflict case. -/
def sessC : Session := ⟨"C".data, some "10:30".data, some "11:30".data⟩

/-- A session with no parsable interval (missing end time). -/
def sessBad : Session := ⟨"D".data, some "09:15".data, none⟩

/-- The spec's reconciliation scenario: storage holding `["s3"]` and a
link parameter carrying the base64url encoding of `["s1","s2"]`. -/
def wC1 : World :=
  ⟨[], some (jsonStringify (.jarr [.jstr "s3".data])), some "WyJzMSIsInMyIl0".data⟩

/-! # Theorems -/

/-! ## Helper lemmas: digits and `Number` -/

theorem isDig_iff {c : Char} : isDig c = true ↔ 48 ≤ c.toNat ∧ c.toNat ≤ 57 := by
  simp [isDig]

theorem isDig_ne_colon {c : Char} (h : isDig c = true) : c ≠ ':' := by
  rintro rfl; simp [isDig] at h

theorem isDig_ne_minus {c : Char} (h : isDig c = true) : c ≠ '-' := by
  rintro rfl; simp [isDig] at h

theorem digitsVal_one {c : Char} (h : isDig c = true) :
    digitsVal [c] = some (c.toNat - 48) := by
  simp [digitsVal, h]

theorem digitsVal_two {c d : Char} (hc : isDig c = true) (hd : isDig d = true) :
    digitsVal [c, d] = some ((c.toNat - 48) * 10 + (d.toNat - 48)) := by
  simp [digitsVal, hc, hd]

theorem jsNumber_cons {c : Char} {cs : JStr} (h : c ≠ '-') :
    jsNumber (c :: cs) = (digitsVal (c :: cs)).map (fun n => (n : Int)) := by
  rw [jsNumber.eq_def]
  split
  · simp_all
  · rename_i heq; rw [List.cons.injEq] at heq; exact absurd heq.1 h
  · rfl

theorem splitOnChar_hmm4 {h1 m1 m2 : Char} (e1 : h1 ≠ ':') (e3 : m1 ≠ ':')
    (e4 : m2 ≠ ':') : splitOnChar ':' [h1, ':', m1, m2] = [[h1], [m1, m2]] := by
  simp [splitOnChar, e1, e3, e4]

theorem splitOnChar_hmm5 {h1 h2 m1 m2 : Char} (e1 : h1 ≠ ':') (e2 : h2 ≠ ':')
    (e3 : m1 ≠ ':') (e4 : m2 ≠ ':') :
    splitOnChar ':' [h1, h2, ':', m1, m2] = [[h1, h2], [m1, m2]] := by
  simp [splitOnChar, e1, e2, e3, e4]

/-- C3, first part: every spec-valid clock string parses to `h * 60 + m`. -/
theorem toMinutes_validHMM {s : JStr} (h : validHMM s = true) :
    toMinutes s = some (hmmHour s * 60 + hmmMin s) := by
  match s with
  | [h1, c, m1, m2] =>
    rw [validHMM] at h
    simp only [Bool.and_eq_true, decide_eq_true_eq] at h
    obtain ⟨⟨⟨⟨hc, hd1⟩, hd3⟩, hd4⟩, hm⟩ := h
    subst hc
    rw [toMinutes, if_neg (by simp),
      splitOnChar_hmm4 (isDig_ne_colon hd1) (isDig_ne_colon hd3) (isDig_ne_colon hd4)]
    simp only [jsNumber_cons (isDig_ne_minus hd1), jsNumber_cons (isDig_ne_minus hd3),
      digitsVal_one hd1, digitsVal_two hd3 hd4, Option.map_some]
    rw [isDig_iff] at hd1 hd3 hd4
    simp [hmmHour, hmmMin]
    omega
  | [h1, h2, c, m1, m2] =>
    rw [validHMM] at h
    simp only [Bool.and_eq_true, decide_eq_true_eq] at h
    obtain ⟨⟨⟨⟨⟨⟨hc, hd1⟩, hd2⟩, hd3⟩, hd4⟩, hh⟩, hm⟩ := h
    subst hc
    rw [toMinutes, if_neg (by simp),
      splitOnChar_hmm5 (isDig_ne_colon hd1) (isDig_ne_colon hd2) (isDig_ne_colon hd3)
        (isDig_ne_colon hd4)]
    simp only [jsNumber_cons (isDig_ne_minus hd1), jsNumber_cons (isDig_ne_minus hd3),
      digitsVal_two hd1 hd2, digitsVal_two hd3 hd4, Option.map_some]
    rw [isDig_iff] at hd1 hd2 hd3 hd4
    simp [hmmHour, hmmMin]
    omega
  | [] => simp [validHMM] at h
  | [_] => simp [validHMM] at h
  | [_, _] => simp [validHMM] at h
  | [_, _, _] => simp [validHMM] at h
  | _ :: _ :: _ :: _ :: _ :: _ :: _ => simp [validHMM] at h

/-- C3, second part: the exact domain of `toMinutes`. -/
theorem toMinutes_some_iff (s : JStr) (v : Int) :
    toMinutes s = some v ↔
      s ≠ [] ∧ ':' ∈ s ∧
      ∃ h m rest hv mv, splitOnChar ':' s = h :: m :: rest ∧
        jsNumber h = some hv ∧ jsNumber m = some mv ∧ v = hv * 60 + mv := by
  rw [toMinutes]
  by_cases hg : s = [] ∨ ':' ∉ s
  · rw [if_pos hg]
    refine iff_of_false (by simp) ?_
    rintro ⟨h1, h2, -⟩
    rcases hg with hg | hg
    · exact h1 hg
    · exact hg h2
  · rw [if_neg hg]
    push_neg at hg
    rcases hsp : splitOnChar ':' s with _ | ⟨h, _ | ⟨m, rest⟩⟩
    · refine iff_of_false (by simp) ?_
      rintro ⟨-, -, _, _, _, _, _, heq, -⟩
      exact List.noConfusion heq
    · refine iff_of_false (by simp) ?_
      rintro ⟨-, -, _, _, _, _, _, heq, -⟩
      simp at heq
    · rcases hh : jsNumber h with _ | hv <;> rcases hm : jsNumber m with _ | mv
      · refine iff_of_false (by simp [hh, hm]) ?_
        rintro ⟨-, -, _, _, _, _, _, heq, hh', -⟩
        rw [List.cons.injEq, List.cons.injEq] at heq
        obtain ⟨rfl, rfl, -⟩ := heq
        rw [hh] at hh'
        exact Option.noConfusion hh'
      · refine iff_of_false (by simp [hh, hm]) ?_
        rintro ⟨-, -, _, _, _, _, _, heq, hh', -⟩
        rw [List.cons.injEq, List.cons.injEq] at heq
        obtain ⟨rfl, rfl, -⟩ := heq
        rw [hh] at hh'
        exact Option.noConfusion hh'
      · refine iff_of_false (by simp [hh, hm]) ?_
        rintro ⟨-, -, _, _, _, _, _, heq, -, hm', -⟩
        rw [List.cons.injEq, List.cons.injEq] at heq
        obtain ⟨rfl, rfl, -⟩ := heq
        rw [hm] at hm'
        exact Option.noConfusion hm'
      · simp only [hh, hm]
        simp only [Option.some.injEq]
        constructor
        · rintro rfl
          exact ⟨hg.1, hg.2, h, m, rest, hv, mv, rfl, hh, hm, rfl⟩
        · rintro ⟨-, -, _, _, _, hv', mv', heq, hh', hm', rfl⟩
          rw [List.cons.injEq, List.cons.injEq] at heq
          obtain ⟨rfl, rfl, -⟩ := heq
          rw [hh, Option.some.injEq] at hh'
          rw [hm, Option.some.injEq] at hm'
          omega

/-- **C3** (amended).  Every `"H:MM"`/`"HH:MM"` 24-hour string parses to
`h * 60 + m`; but `toMinutes` accepts more than those: it succeeds exactly
on non-empty strings containing a colon whose first two colon-separated
fields coerce to numbers under `Number` (an empty field coercing to 0),
returning `field1 * 60 + field2`. -/
theorem toMinutes_contract (s : JStr) :
    (validHMM s = true → toMinutes s = some (hmmHour s * 60 + hmmMin s)) ∧
    (∀ v : Int, toMinutes s = some v ↔
      s ≠ [] ∧ ':' ∈ s ∧
      ∃ h m rest hv mv, splitOnChar ':' s = h :: m :: rest ∧
        jsNumber h = some hv ∧ jsNumber m = some mv ∧ v = hv * 60 + mv) :=
  ⟨toMinutes_validHMM, toMinutes_some_iff s⟩

/-- **C3**, counterexample to the claim as stated: `"1:2"` matches neither
`"H:MM"` nor `"HH:MM"`, yet parsing yields a value (62). -/
theorem toMinutes_nonHMM_counterexample :
    validHMM "1:2".data = false ∧ toMinutes "1:2".data = some 62 := by
  constructor
  · decide
  · decide

/-- Witness for `toMinutes_contract` at `"09:30"`. -/
theorem toMinutes_contract_witness :
    validHMM "09:30".data = true ∧ toMinutes "09:30".data = some 570 :=
  ⟨by decide, ((toMinutes_contract "09:30".data).1 (by decide)).trans (by decide)⟩

/-! ## Conflict-detector lemmas -/

/-- **C9**.  The pairwise overlap predicate is symmetric. -/
theorem overlaps_comm (a b : Session) : overlaps a b = overlaps b a := by
  unfold overlaps
  rcases toMinutesOpt a.start with _ | aS <;> rcases toMinutesOpt a.«end» with _ | aE <;>
    rcases toMinutesOpt b.start with _ | bS <;> rcases toMinutesOpt b.«end» with _ | bE <;>
    simp
  by_cases h1 : aS = aE <;> by_cases h2 : bS = bE <;> simp [h1, h2, Bool.and_comm, or_comm]

theorem mem_jsSetAddStr {l : List JStr} {x y : JStr} :
    y ∈ jsSetAddStr l x ↔ y ∈ l ∨ y = x := by
  unfold jsSetAddStr
  split
  · rename_i h
    exact ⟨fun hy => Or.inl hy, fun hy => hy.elim id (fun e => e ▸ h)⟩
  · simp

/-- A session whose interval data is missing, unparsable or degenerate
overlaps nothing (left argument). -/
theorem overlaps_left_eq_false {s : Session} (t : Session)
    (h : toMinutesOpt s.start = none ∨ toMinutesOpt s.«end» = none ∨
      toMinutesOpt s.start = toMinutesOpt s.«end») : overlaps s t = false := by
  unfold overlaps
  rcases h1 : toMinutesOpt s.start with _ | sS <;>
    rcases h2 : toMinutesOpt s.«end» with _ | sE <;>
    rcases h3 : toMinutesOpt t.start with _ | tS <;>
    rcases h4 : toMinutesOpt t.«end» with _ | tE <;>
    simp [h1, h2, h3, h4]
  all_goals
    rcases h with h | h | h
  all_goals first
    | exact Option.noConfusion (h1.symm.trans h)
    | exact Option.noConfusion (h2.symm.trans h)
    | (rw [h1, h2, Option.some.injEq] at h; simp [h])

/-- A session whose interval data is missing, unparsable or degenerate
overlaps nothing (right argument). -/
theorem overlaps_right_eq_false {s : Session} (t : Session)
    (h : toMinutesOpt s.start = none ∨ toMinutesOpt s.«end» = none ∨
      toMinutesOpt s.start = toMinutesOpt s.«end») : overlaps t s = false := by
  unfold overlaps
  rcases h1 : toMinutesOpt s.start with _ | sS <;>
    rcases h2 : toMinutesOpt s.«end» with _ | sE <;>
    rcases h3 : toMinutesOpt t.start with _ | tS <;>
    rcases h4 : toMinutesOpt t.«end» with _ | tE <;>
    simp [h1, h2, h3, h4]
  all_goals
    rcases h with h | h | h
  all_goals first
    | exact Option.noConfusion (h1.symm.trans h)
    | exact Option.noConfusion (h2.symm.trans h)
    | (rw [h1, h2, Option.some.injEq] at h; simp [h])

/-- Membership in the inner loop of `findConflicts`. -/
theorem mem_inner_conflicts (s : Session) :
    ∀ (rest : List Session) (acc : List JStr) (x : JStr),
      x ∈ rest.foldl
        (fun a t =>
          if overlaps s t then jsSetAddStr (jsSetAddStr a s.session_id) t.session_id
          else a) acc →
      x ∈ acc ∨ ∃ b ∈ rest, overlaps s b = true ∧ (x = s.session_id ∨ x = b.session_id)
  | [], acc, x, hx => Or.inl hx
  | t :: rest, acc, x, hx => by
    rw [List.foldl_cons] at hx
    rcases mem_inner_conflicts s rest _ x hx with h | ⟨b, hb, hov, hor⟩
    · by_cases hov : overlaps s t = true
      · rw [if_pos hov] at h
        rw [mem_jsSetAddStr] at h
        rcases h with h | h
        · rw [mem_jsSetAddStr] at h
          rcases h with h | h
          · exact Or.inl h
          · exact Or.inr ⟨t, List.mem_cons_self t rest, hov, Or.inl h⟩
        · exact Or.inr ⟨t, List.mem_cons_self t rest, hov, Or.inr h⟩
      · rw [if_neg hov] at h
        exact Or.inl h
    · exact Or.inr ⟨b, List.mem_cons_of_mem t hb, hov, hor⟩

/-- Membership in `findConflictsFrom`: every reported id comes from the
accumulator or from an actually overlapping pair. -/
theorem mem_findConflictsFrom :
    ∀ (l : List Session) (acc : List JStr) (x : JStr),
      x ∈ findConflictsFrom l acc →
      x ∈ acc ∨ ∃ a ∈ l, ∃ b ∈ l, overlaps a b = true ∧
        (x = a.session_id ∨ x = b.session_id)
  | [], acc, x, hx => Or.inl hx
  | s :: rest, acc, x, hx => by
    rw [findConflictsFrom] at hx
    rcases mem_findConflictsFrom rest _ x hx with h | ⟨a, ha, b, hb, hov, hor⟩
    · rcases mem_inner_conflicts s rest acc x h with h | ⟨b, hb, hov, hor⟩
      · exact Or.inl h
      · exact Or.inr ⟨s, List.mem_cons_self s rest, b, List.mem_cons_of_mem s hb, hov, hor⟩
    · exact Or.inr ⟨a, List.mem_cons_of_mem s ha, b, List.mem_cons_of_mem s hb, hov, hor⟩

/-- **C4**.  A session with missing, unparsable or degenerate interval
data never contributes its identifier to the conflict result, whatever
the other sessions are (the spec's precondition that the caller passes
distinct sessions appears as the hypothesis that no other listed session
carries the same identifier). -/
theorem bad_session_not_in_conflicts (sessions : List Session) (s : Session)
    (hs : s ∈ sessions)
    (hbad : toMinutesOpt s.start = none ∨ toMinutesOpt s.«end» = none ∨
      toMinutesOpt s.start = toMinutesOpt s.«end»)
    (hid : ∀ t ∈ sessions, t.session_id = s.session_id → t = s) :
    s.session_id ∉ findConflicts sessions := by
  intro hmem
  rcases mem_findConflictsFrom sessions [] _ hmem with h | ⟨a, ha, b, hb, hov, hx⟩
  · exact List.not_mem_nil _ h
  · rcases hx with hx | hx
    · have hae : a = s := hid a ha hx.symm
      subst hae
      rw [overlaps_left_eq_false b hbad] at hov
      exact Bool.noConfusion hov
    · have hbe : b = s := hid b hb hx.symm
      subst hbe
      rw [overlaps_right_eq_false a hbad] at hov
      exact Bool.noConfusion hov

/-- Witness for `bad_session_not_in_conflicts`: a session with a missing
end time among two genuinely conflicting sessions. -/
theorem bad_session_not_in_conflicts_witness :
    sessBad.session_id ∉ findConflicts [sessBad, sessA, sessB] :=
  bad_session_not_in_conflicts [sessBad, sessA, sessB] sessBad (by decide)
    (by decide) (by decide)

/-- **C5**.  For sessions with parsed, non-degenerate intervals, overlap
is exactly the half-open test `aStart < bEnd ∧ bStart < aEnd`; and on the
spec's concrete sessions A[09:00–10:00], B[09:30–10:30], C[10:30–11:30]
the detector reports exactly A and B. -/
theorem overlaps_halfOpen_and_example :
    (∀ (a b : Session) (aS aE bS bE : Int),
        toMinutesOpt a.start = some aS → toMinutesOpt a.«end» = some aE →
        toMinutesOpt b.start = some bS → toMinutesOpt b.«end» = some bE →
        aS ≠ aE → bS ≠ bE → (overlaps a b = true ↔ aS < bE ∧ bS < aE)) ∧
    findConflicts [sessA, sessB, sessC] = ["A".data, "B".data] := by
  constructor
  · intro a b aS aE bS bE h1 h2 h3 h4 hne1 hne2
    simp [overlaps, h1, h2, h3, h4, hne1, hne2]
  · decide

/-- Witness for `overlaps_halfOpen_and_example` at sessions A and B. -/
theorem overlaps_halfOpen_witness :
    overlaps sessA sessB = true ↔ ((540 : Int) < 630 ∧ (570 : Int) < 600) :=
  overlaps_halfOpen_and_example.1 sessA sessB 540 600 570 630
    (by decide) (by decide) (by decide) (by decide) (by decide) (by decide)

/-! ## Starred-set lemmas -/

theorem Jval.beq_jstr_iff {a : JStr} {v : Jval} :
    Jval.beq (.jstr a) v = true ↔ v = .jstr a := by
  cases v <;> simp [Jval.beq]
  exact comm

theorem Jval.beq_jstr_self (a : JStr) : Jval.beq (.jstr a) (.jstr a) = true := by
  simp [Jval.beq]

theorem jsHas_eq_true_iff {l : List Jval} {x : Jval} :
    jsHas l x = true ↔ ∃ y ∈ l, Jval.beq x y = true := by
  simp [jsHas, List.any_eq_true]

theorem jsHas_jstr_iff {l : List Jval} {a : JStr} :
    jsHas l (.jstr a) = true ↔ Jval.jstr a ∈ l := by
  rw [jsHas_eq_true_iff]
  constructor
  · rintro ⟨y, hy, hbeq⟩
    rw [Jval.beq_jstr_iff] at hbeq
    exact hbeq ▸ hy
  · intro h
    exact ⟨_, h, Jval.beq_jstr_self a⟩

/-- `persist` does not change the in-memory set. -/
theorem persist_starred (w : World) : (persist w).starred = w.starred := by
  unfold persist writeHash saveStarredToLS
  split <;> rfl

/-- `persist` writes the stringified current set to the storage slot. -/
theorem persist_lsSlot (w : World) :
    (persist w).lsSlot = some (jsonStringify (.jarr w.starred)) := by
  unfold persist writeHash saveStarredToLS
  split <;> rfl

/-- **C10**.  `toggle(id)` flips the membership of `id` and leaves the
membership of every other identifier unchanged. -/
theorem toggleStar_frame (w : World) (id : JStr) :
    (jsHas (toggleStar id w).starred (.jstr id) = !jsHas w.starred (.jstr id)) ∧
    (∀ y : JStr, y ≠ id →
      jsHas (toggleStar id w).starred (.jstr y) = jsHas w.starred (.jstr y)) := by
  have hst : (toggleStar id w).starred =
      (if jsHas w.starred (.jstr id) then jsSetDelete w.starred (.jstr id)
       else jsSetAdd w.starred (.jstr id)) := persist_starred _
  rw [hst]
  by_cases hh : jsHas w.starred (.jstr id) = true
  · rw [if_pos hh, hh]
    constructor
    · rw [Bool.not_true]
      rw [Bool.eq_false_iff]
      intro hcon
      rw [jsHas_eq_true_iff] at hcon
      obtain ⟨y, hy, hbeq⟩ := hcon
      rw [jsSetDelete, List.mem_filter] at hy
      rw [hbeq] at hy
      simp at hy
    · intro y hy
      have : jsHas (jsSetDelete w.starred (.jstr id)) (.jstr y) = true ↔
          jsHas w.starred (.jstr y) = true := by
        rw [jsHas_jstr_iff, jsHas_jstr_iff, jsSetDelete, List.mem_filter]
        constructor
        · exact fun h => h.1
        · intro h
          refine ⟨h, ?_⟩
          rw [Bool.not_eq_eq_eq_not, Bool.not_true, Bool.eq_false_iff]
          intro hcon
          rw [Jval.beq_jstr_iff] at hcon
          rw [Jval.jstr.injEq] at hcon
          exact hy hcon
      rcases hb : jsHas w.starred (.jstr y) with _ | _
      · rw [Bool.eq_false_iff]
        intro hcon
        rw [hb] at this
        simp [hcon] at this
      · rw [hb] at this
        simp at this
        exact this
  · rw [Bool.not_eq_true] at hh
    rw [if_neg (by simp [hh]), hh, Bool.not_false]
    have hadd : jsSetAdd w.starred (.jstr id) = w.starred ++ [.jstr id] := by
      rw [jsSetAdd, if_neg (by simp [hh])]
    rw [hadd]
    constructor
    · rw [jsHas_jstr_iff]
      simp
    · intro y hy
      rcases hb : jsHas w.starred (.jstr y) with _ | _
      · rw [Bool.eq_false_iff]
        intro hcon
        rw [jsHas_jstr_iff, List.mem_append] at hcon
        rcases hcon with hcon | hcon
        · rw [← jsHas_jstr_iff, hb] at hcon
          exact Bool.noConfusion hcon
        · simp [Jval.jstr.injEq] at hcon
          exact hy hcon
      · rw [jsHas_jstr_iff, List.mem_append]
        exact Or.inl (jsHas_jstr_iff.mp hb)

/-- Witness for `toggleStar_frame`: toggling `"x"` in a world whose set
holds `"y"` adds `"x"` and keeps `"y"`. -/
theorem toggleStar_frame_witness :
    (jsHas (toggleStar "x".data ⟨[.jstr "y".data], none, none⟩).starred
        (.jstr "x".data) = !jsHas [Jval.jstr "y".data] (.jstr "x".data)) ∧
    jsHas (toggleStar "x".data ⟨[.jstr "y".data], none, none⟩).starred
        (.jstr "y".data) = jsHas [Jval.jstr "y".data] (.jstr "y".data) :=
  ⟨(toggleStar_frame ⟨[.jstr "y".data], none, none⟩ "x".data).1,
   (toggleStar_frame ⟨[.jstr "y".data], none, none⟩ "x".data).2 "y".data (by decide)⟩

/-- **C8**.  From an empty set, toggling the same id twice returns the
set to empty, and the second persistence clears the link parameter
(`replaceState` back to the bare URL). -/
theorem toggleStar_twice_empty (sid : JStr) (w : World) (h : w.starred = []) :
    (toggleStar sid (toggleStar sid w)).starred = [] ∧
    (toggleStar sid (toggleStar sid w)).hashA = none := by
  obtain ⟨st, ls, ha⟩ := w
  simp only at h
  subst h
  have h1 : (toggleStar sid ⟨[], ls, ha⟩).starred = [Jval.jstr sid] := by
    rw [toggleStar, persist_starred]
    simp [jsHas, jsSetAdd]
  constructor
  · rw [toggleStar, persist_starred]
    simp only [h1]
    rw [if_pos (by rw [jsHas_jstr_iff]; exact List.mem_singleton_self _)]
    simp [jsSetDelete, Jval.beq_jstr_self]
  · rw [toggleStar]
    have h2 : (if jsHas (toggleStar sid ⟨[], ls, ha⟩).starred (.jstr sid) then
        jsSetDelete (toggleStar sid ⟨[], ls, ha⟩).starred (.jstr sid)
        else jsSetAdd (toggleStar sid ⟨[], ls, ha⟩).starred (.jstr sid)) = [] := by
      simp only [h1]
      rw [if_pos (by rw [jsHas_jstr_iff]; exact List.mem_singleton_self _)]
      simp [jsSetDelete, Jval.beq_jstr_self]
    rw [persist, writeHash]
    rw [h2]
    rfl

/-- Witness for `toggleStar_twice_empty` in the bare world. -/
theorem toggleStar_twice_empty_witness :
    (toggleStar "x".data (toggleStar "x".data ⟨[], none, none⟩)).starred = [] ∧
    (toggleStar "x".data (toggleStar "x".data ⟨[], none, none⟩)).hashA = none :=
  toggleStar_twice_empty "x".data ⟨[], none, none⟩ rfl

/-- **C2**, counterexample to the claim as stated: starring `"b"` then
`"a"` writes the storage slot in insertion order `["b","a"]`, not the
sorted order `["a","b"]`. -/
theorem lsSlot_unsorted_counterexample :
    (toggleStar "a".data (toggleStar "b".data ⟨[], none, none⟩)).starred =
      [Jval.jstr "b".data, Jval.jstr "a".data] ∧
    (toggleStar "a".data (toggleStar "b".data ⟨[], none, none⟩)).lsSlot =
      some ('[' :: '"' :: 'b' :: '"' :: ',' :: '"' :: 'a' :: '"' :: [']']) ∧
    jsonStringify (.jarr (jsSortJ [Jval.jstr "b".data, Jval.jstr "a".data])) =
      '[' :: '"' :: 'a' :: '"' :: ',' :: '"' :: 'b' :: '"' :: [']'] ∧
    ('[' :: '"' :: 'b' :: '"' :: ',' :: '"' :: 'a' :: '"' :: [']'] : JStr) ≠
      '[' :: '"' :: 'a' :: '"' :: ',' :: '"' :: 'b' :: '"' :: [']'] := by
  refine ⟨rfl, rfl, rfl, by decide⟩

/-- **C2** (amended).  Every mutation (toggle or clear) writes to the
storage slot the JSON array of the starred identifiers in the set's
insertion order; only the shareable-link encoding sorts. -/
theorem mutation_writes_insertion_order (w : World) (sid : JStr) :
    (toggleStar sid w).lsSlot =
      some (jsonStringify (.jarr (toggleStar sid w).starred)) ∧
    (resetAgendaStarred w).lsSlot =
      some (jsonStringify (.jarr (resetAgendaStarred w).starred)) := by
  constructor
  · rw [toggleStar, persist_lsSlot, persist_starred]
  · rw [resetAgendaStarred, persist_lsSlot, persist_starred]

/-- **C1**.  Reconciliation at startup: a present, non-empty decode of
the link parameter becomes the canonical set and is written to storage;
an absent, empty or failed decode leaves storage untouched and loads the
canonical set from storage. -/
theorem initStarred_reconciles (w : World) :
    (∀ ids, readHashStarred w.hashA = some ids → ids ≠ [] →
      (initStarred w).starred = jsSetOf ids ∧
      (initStarred w).lsSlot = some (jsonStringify (.jarr ids)) ∧
      (initStarred w).hashA = w.hashA) ∧
    (readHashStarred w.hashA = none ∨ readHashStarred w.hashA = some [] →
      (initStarred w).starred = jsSetOf (loadStarredFromLS w.lsSlot) ∧
      (initStarred w).lsSlot = w.lsSlot ∧
      (initStarred w).hashA = w.hashA) := by
  constructor
  · intro ids hread hne
    simp only [initStarred, hread]
    rw [if_pos (by simpa [List.length_pos] using hne)]
    exact ⟨rfl, rfl, rfl⟩
  · intro hread
    rcases hread with hread | hread
    · simp only [initStarred, hread]
      exact ⟨trivial, trivial, trivial⟩
    · simp only [initStarred, hread, List.length_nil, gt_iff_lt, lt_self_iff_false,
        if_false]
      exact ⟨trivial, trivial, trivial⟩

/-- Witness for `initStarred_reconciles`: the spec's scenario, a link
carrying `["s1","s2"]` over storage carrying `["s3"]`. -/
theorem initStarred_reconciles_witness :
    (initStarred wC1).starred = jsSetOf [.jstr "s1".data, .jstr "s2".data] ∧
    (initStarred wC1).lsSlot =
      some (jsonStringify (.jarr [.jstr "s1".data, .jstr "s2".data])) ∧
    (initStarred wC1).hashA = wC1.hashA :=
  (initStarred_reconciles wC1).1 [.jstr "s1".data, .jstr "s2".data] rfl
    (List.cons_ne_nil _ _)

/-! ## Defensive decoding -/

/-- **C7**.  Decoding is total with safe defaults: a failure at the
base64, UTF-8 or JSON stage, or a parse result that is not an array,
yields `[]`; a malformed storage payload likewise yields `[]`, and
initialization from it yields an empty starred set.  (No exception can
propagate: every stage is a total function.) -/
theorem decode_defensive (s : JStr) :
    (atobModel (s.map fromUrlChar) = none → decodeStarredJ s = []) ∧
    (∀ bytes, atobModel (s.map fromUrlChar) = some bytes →
      utf8Decode bytes = none → decodeStarredJ s = []) ∧
    (∀ bytes t, atobModel (s.map fromUrlChar) = some bytes →
      utf8Decode bytes = some t → jsonParse t = none → decodeStarredJ s = []) ∧
    (∀ bytes t v, atobModel (s.map fromUrlChar) = some bytes →
      utf8Decode bytes = some t → jsonParse t = some v → (∀ xs, v ≠ .jarr xs) →
      decodeStarredJ s = []) ∧
    (∀ raw, jsonParse raw = none → loadStarredFromLS (some raw) = []) ∧
    (∀ (w : World) raw, w.hashA = none → w.lsSlot = some raw →
      jsonParse raw = none → (initStarred w).starred = []) := by
  refine ⟨?_, ?_, ?_, ?_, ?_, ?_⟩
  · intro h
    rw [decodeStarredJ]
    split
    · rfl
    · rw [h]
  · intro bytes h1 h2
    rw [decodeStarredJ]
    split
    · rfl
    · simp only [h1, h2]
  · intro bytes t h1 h2 h3
    rw [decodeStarredJ]
    split
    · rfl
    · simp only [h1, h2, h3]
  · intro bytes t v h1 h2 h3 hv
    rw [decodeStarredJ]
    split
    · rfl
    · simp only [h1, h2, h3]
      match v, hv with
      | .jnull, _ => rfl
      | .jbool _, _ => rfl
      | .jnum _, _ => rfl
      | .jstr _, _ => rfl
      | .jobj _, _ => rfl
      | .jarr xs, hv => exact absurd rfl (hv xs)
  · intro raw h
    rw [loadStarredFromLS]
    split
    · rfl
    · rw [h]
  · intro w raw hha hls hraw
    rw [initStarred, hha]
    simp only [readHashStarred]
    rw [hls, loadStarredFromLS]
    rw [hraw]
    split
    · rfl
    · simp [jsSetOf]

/-! ## base64 round trip -/

theorem b64val_b64enc : ∀ i, i < 64 → b64val (b64enc i) = some i := by decide

theorem b64enc_not_ws : ∀ i, i < 64 → isB64Ws (b64enc i) = false := by decide

theorem toUrl_b64enc_ne_eq : ∀ i, i < 64 → toUrlChar (b64enc i) ≠ '=' := by decide

theorem toUrl_b64enc_not_ws : ∀ i, i < 64 → isB64Ws (toUrlChar (b64enc i)) = false := by
  decide

theorem fromUrl_toUrl_b64enc : ∀ i, i < 64 →
    fromUrlChar (toUrlChar (b64enc i)) = b64enc i := by decide

theorem btoa_eq_clean_pad :
    ∀ bytes : List Nat, ∃ k, k ≤ 2 ∧
      btoaModel bytes = b64clean bytes ++ List.replicate k '='
  | [] => ⟨0, by omega, rfl⟩
  | [_] => ⟨2, by omega, rfl⟩
  | [_, _] => ⟨1, by omega, rfl⟩
  | a :: b :: c :: rest => by
    obtain ⟨k, hk, he⟩ := btoa_eq_clean_pad rest
    refine ⟨k, hk, ?_⟩
    rw [btoaModel, b64clean.eq_def]
    simp only [he, List.cons_append, List.append_assoc]

theorem mem_b64clean :
    ∀ bytes : List Nat, (∀ x ∈ bytes, x < 256) →
      ∀ c ∈ b64clean bytes, ∃ i, i < 64 ∧ c = b64enc i
  | [], _, c, hc => absurd hc (List.not_mem_nil c)
  | [a], h, c, hc => by
    have ha : a < 256 := h a (List.mem_singleton_self a)
    rw [b64clean] at hc
    simp only [List.mem_cons, List.mem_singleton] at hc
    rcases hc with hc | hc | hc
    · exact ⟨a / 4, by omega, hc⟩
    · exact ⟨a % 4 * 16, by omega, hc⟩
    · exact absurd hc (List.not_mem_nil c)
  | [a, b], h, c, hc => by
    have ha : a < 256 := h a (by simp)
    have hb : b < 256 := h b (by simp)
    rw [b64clean] at hc
    simp only [List.mem_cons, List.mem_singleton] at hc
    rcases hc with hc | hc | hc | hc
    · exact ⟨a / 4, by omega, hc⟩
    · exact ⟨a % 4 * 16 + b / 16, by omega, hc⟩
    · exact ⟨b % 16 * 4, by omega, hc⟩
    · exact absurd hc (List.not_mem_nil c)
  | a :: b :: c' :: rest, h, c, hc => by
    have ha : a < 256 := h a (by simp)
    have hb : b < 256 := h b (by simp)
    have hcb : c' < 256 := h c' (by simp)
    rw [b64clean.eq_def] at hc
    simp only [List.mem_cons] at hc
    rcases hc with hc | hc | hc | hc | hc
    · exact ⟨a / 4, by omega, hc⟩
    · exact ⟨a % 4 * 16 + b / 16, by omega, hc⟩
    · exact ⟨b % 16 * 4 + c' / 64, by omega, hc⟩
    · exact ⟨c' % 64, by omega, hc⟩
    · exact mem_b64clean rest (fun x hx => h x (by simp [hx])) c hc

theorem dropWhile_replicate_append (p : Char → Bool) (c : Char) (hp : p c = true) :
    ∀ (k : Nat) (l : JStr),
      List.dropWhile p (List.replicate k c ++ l) = List.dropWhile p l
  | 0, l => by simp
  | k + 1, l => by
    rw [List.replicate_succ, List.cons_append, List.dropWhile_cons, if_pos hp]
    exact dropWhile_replicate_append p c hp k l

theorem stripEq_append_pad (l : JStr) (k : Nat) (h : ∀ c ∈ l, c ≠ '=') :
    stripEq (l ++ List.replicate k '=') = l := by
  rw [stripEq, List.reverse_append, List.reverse_replicate,
    dropWhile_replicate_append _ '=' (by decide)]
  rcases hl : l.reverse with _ | ⟨c, r⟩
  · simp only [List.dropWhile_nil]
    rw [← hl, List.reverse_reverse]
  · have hc : c ∈ l := by
      rw [← List.mem_reverse, hl]
      exact List.mem_cons_self c r
    rw [List.dropWhile_cons, if_neg (by simp [h c hc]), ← hl, List.reverse_reverse]

theorem dropTrailPad_no_eq (l : JStr) (h : ∀ c ∈ l, c ≠ '=') : dropTrailPad l = l := by
  unfold dropTrailPad
  split
  · rename_i r heq
    exact absurd (h '=' (by rw [← List.mem_reverse, heq]; exact List.mem_cons_self _ _))
      (by simp)
  · rename_i r heq
    exact absurd (h '=' (by rw [← List.mem_reverse, heq]; exact List.mem_cons_self _ _))
      (by simp)
  · rfl

theorem b64clean_length_mod4 :
    ∀ bytes : List Nat, (b64clean bytes).length % 4 ≠ 1
  | [] => by simp [b64clean]
  | [_] => by simp [b64clean]
  | [_, _] => by simp [b64clean]
  | a :: b :: c :: rest => by
    have ih := b64clean_length_mod4 rest
    rw [b64clean.eq_def]
    simp only [List.length_cons]
    omega

theorem b64groups_cons4 (g1 g2 g3 g4 : Nat) (rest : List Nat) :
    b64groups (g1 :: g2 :: g3 :: g4 :: rest) =
      (b64groups rest).map
        (fun bs => (g1 * 4 + g2 / 16) :: (g2 % 16 * 16 + g3 / 4) ::
          (g3 % 4 * 64 + g4) :: bs) := rfl

theorem b64_decode_clean :
    ∀ bytes : List Nat, (∀ x ∈ bytes, x < 256) →
      ∃ vs, b64vals (b64clean bytes) = some vs ∧ b64groups vs = some bytes
  | [], _ => ⟨[], rfl, rfl⟩
  | [a], h => by
    have ha : a < 256 := h a (by simp)
    refine ⟨[a / 4, a % 4 * 16], ?_, ?_⟩
    · rw [b64clean]
      rw [b64vals, b64val_b64enc _ (by omega)]
      rw [b64vals, b64val_b64enc _ (by omega)]
      rfl
    · rw [b64groups]
      congr 1
      rw [List.cons.injEq]
      constructor
      · omega
      · rfl
  | [a, b], h => by
    have ha : a < 256 := h a (by simp)
    have hb : b < 256 := h b (by simp)
    refine ⟨[a / 4, a % 4 * 16 + b / 16, b % 16 * 4], ?_, ?_⟩
    · rw [b64clean]
      rw [b64vals, b64val_b64enc _ (by omega)]
      rw [b64vals, b64val_b64enc _ (by omega)]
      rw [b64vals, b64val_b64enc _ (by omega)]
      rfl
    · rw [b64groups]
      congr 1
      rw [List.cons.injEq, List.cons.injEq]
      refine ⟨by omega, by omega, rfl⟩
  | a :: b :: c :: rest, h => by
    have ha : a < 256 := h a (by simp)
    have hb : b < 256 := h b (by simp)
    have hc : c < 256 := h c (by simp)
    obtain ⟨vs, hvs, hgr⟩ := b64_decode_clean rest (fun x hx => h x (by simp [hx]))
    refine ⟨a / 4 :: (a % 4 * 16 + b / 16) :: (b % 16 * 4 + c / 64) :: c % 64 :: vs,
      ?_, ?_⟩
    · rw [b64clean.eq_def]
      rw [b64vals, b64val_b64enc _ (by omega)]
      rw [b64vals, b64val_b64enc _ (by omega)]
      rw [b64vals, b64val_b64enc _ (by omega)]
      rw [b64vals, b64val_b64enc _ (by omega)]
      rw [hvs]
    · rw [b64groups_cons4, hgr, Option.map_some']
      congr 1
      rw [List.cons.injEq, List.cons.injEq, List.cons.injEq]
      refine ⟨by omega, by omega, by omega, rfl⟩

theorem b64enc_ne_eq : ∀ i, i < 64 → b64enc i ≠ '=' := by decide

theorem map_fromUrl_toUrl_clean (bytes : List Nat) (h : ∀ x ∈ bytes, x < 256) :
    ((b64clean bytes).map toUrlChar).map fromUrlChar = b64clean bytes := by
  rw [List.map_map]
  have hcg : ∀ c ∈ b64clean bytes, (fromUrlChar ∘ toUrlChar) c = c := by
    intro c hc
    obtain ⟨i, hi, rfl⟩ := mem_b64clean bytes h c hc
    exact fromUrl_toUrl_b64enc i hi
  rw [List.map_congr_left hcg, List.map_id']

theorem atob_of_encode (bytes : List Nat) (h : ∀ x ∈ bytes, x < 256) :
    atobModel ((stripEq ((btoaModel bytes).map toUrlChar)).map fromUrlChar) =
      some bytes := by
  obtain ⟨k, hk, he⟩ := btoa_eq_clean_pad bytes
  rw [he, List.map_append, List.map_replicate]
  rw [show toUrlChar '=' = '=' from rfl]
  have hmem : ∀ c ∈ (b64clean bytes).map toUrlChar, c ≠ '=' := by
    intro c hcm
    rw [List.mem_map] at hcm
    obtain ⟨c', hc', rfl⟩ := hcm
    obtain ⟨i, hi, rfl⟩ := mem_b64clean bytes h c' hc'
    exact toUrl_b64enc_ne_eq i hi
  rw [stripEq_append_pad _ k hmem, map_fromUrl_toUrl_clean bytes h]
  have hfil : (b64clean bytes).filter (fun c => !isB64Ws c) = b64clean bytes :=
    List.filter_eq_self.mpr (fun c hc => by
      obtain ⟨i, hi, rfl⟩ := mem_b64clean bytes h c hc
      simp [b64enc_not_ws i hi])
  have hnopad : dropTrailPad (b64clean bytes) = b64clean bytes :=
    dropTrailPad_no_eq _ (fun c hc => by
      obtain ⟨i, hi, rfl⟩ := mem_b64clean bytes h c hc
      exact b64enc_ne_eq i hi)
  obtain ⟨vs, hvs, hgr⟩ := b64_decode_clean bytes h
  rw [atobModel]
  simp only [hfil, hnopad, ite_self]
  rw [if_neg (b64clean_length_mod4 bytes), hvs]
  exact hgr

/-! ## UTF-8 round trip -/

theorem char_range (c : Char) :
    c.toNat < 55296 ∨ (57344 ≤ c.toNat ∧ c.toNat < 1114112) := by
  have h := c.valid
  rw [UInt32.isValidChar] at h
  rcases h with h | ⟨h1, h2⟩
  · exact Or.inl h
  · exact Or.inr ⟨h1, h2⟩

theorem utf8EncodeChar_lt256 (c : Char) : ∀ b ∈ utf8EncodeChar c, b < 256 := by
  have hr := char_range c
  rw [utf8EncodeChar]
  by_cases h1 : c.toNat < 128
  · rw [if_pos h1]
    intro b hb
    rw [List.mem_singleton] at hb
    omega
  · rw [if_neg h1]
    by_cases h2 : c.toNat < 2048
    · rw [if_pos h2]
      intro b hb
      simp only [List.mem_cons, List.mem_singleton, List.not_mem_nil, or_false] at hb
      rcases hb with hb | hb <;> omega
    · rw [if_neg h2]
      by_cases h3 : c.toNat < 65536
      · rw [if_pos h3]
        intro b hb
        simp only [List.mem_cons, List.not_mem_nil, or_false] at hb
        rcases hb with hb | hb | hb <;> omega
      · rw [if_neg h3]
        intro b hb
        simp only [List.mem_cons, List.not_mem_nil, or_false] at hb
        rcases hb with hb | hb | hb | hb <;> omega

theorem utf8Encode_lt256 : ∀ s : JStr, ∀ b ∈ utf8Encode s, b < 256
  | [], b, hb => absurd hb (List.not_mem_nil b)
  | c :: cs, b, hb => by
    rw [utf8Encode] at hb
    rw [List.mem_append] at hb
    rcases hb with hb | hb
    · exact utf8EncodeChar_lt256 c b hb
    · exact utf8Encode_lt256 cs b hb

theorem utf8EncodeChar_step (c : Char) (rest : List Nat) :
    ∃ b bs, utf8EncodeChar c = b :: bs ∧
      utf8DecodeAux b (bs ++ rest) = some (c, rest) := by
  have hr := char_range c
  rw [utf8EncodeChar]
  by_cases h1 : c.toNat < 128
  · refine ⟨c.toNat, [], by rw [if_pos h1], ?_⟩
    rw [List.nil_append, utf8DecodeAux.eq_def, if_pos h1, Char.ofNat_toNat]
  · by_cases h2 : c.toNat < 2048
    · refine ⟨192 + c.toNat / 64, [128 + c.toNat % 64],
        by rw [if_neg h1, if_pos h2], ?_⟩
      rw [List.cons_append, List.nil_append, utf8DecodeAux.eq_def]
      rw [if_neg (by omega), if_pos (by omega)]
      simp only [show isCont (128 + c.toNat % 64) = true from
        by simp only [isCont, decide_eq_true_eq]; omega, if_true]
      rw [show (192 + c.toNat / 64 - 192) * 64 + (128 + c.toNat % 64 - 128) =
        c.toNat from by omega, Char.ofNat_toNat]
    · by_cases h3 : c.toNat < 65536
      · refine ⟨224 + c.toNat / 4096, [128 + c.toNat / 64 % 64, 128 + c.toNat % 64],
          by rw [if_neg h1, if_neg h2, if_pos h3], ?_⟩
        rw [List.cons_append, List.cons_append, List.nil_append, utf8DecodeAux.eq_def]
        rw [if_neg (by omega), if_neg (by omega), if_pos (by omega)]
        have hguard : (if 224 + c.toNat / 4096 = 224 then
              decide (160 ≤ 128 + c.toNat / 64 % 64 ∧ 128 + c.toNat / 64 % 64 ≤ 191)
            else if 224 + c.toNat / 4096 = 237 then
              decide (128 ≤ 128 + c.toNat / 64 % 64 ∧ 128 + c.toNat / 64 % 64 ≤ 159)
            else isCont (128 + c.toNat / 64 % 64)) = true := by
          by_cases hb : 224 + c.toNat / 4096 = 224
          · rw [if_pos hb]
            simp only [decide_eq_true_eq]
            omega
          · rw [if_neg hb]
            by_cases hb2 : 224 + c.toNat / 4096 = 237
            · rw [if_pos hb2]
              simp only [decide_eq_true_eq]
              omega
            · rw [if_neg hb2]
              simp only [isCont, decide_eq_true_eq]
              omega
        simp only [hguard, show isCont (128 + c.toNat % 64) = true from
          by simp only [isCont, decide_eq_true_eq]; omega, Bool.and_self, if_true]
        rw [show (224 + c.toNat / 4096 - 224) * 4096 +
          (128 + c.toNat / 64 % 64 - 128) * 64 + (128 + c.toNat % 64 - 128) =
          c.toNat from by omega, Char.ofNat_toNat]
      · refine ⟨240 + c.toNat / 262144,
          [128 + c.toNat / 4096 % 64, 128 + c.toNat / 64 % 64, 128 + c.toNat % 64],
          by rw [if_neg h1, if_neg h2, if_neg h3], ?_⟩
        rw [List.cons_append, List.cons_append, List.cons_append, List.nil_append,
          utf8DecodeAux.eq_def]
        rw [if_neg (by omega), if_neg (by omega), if_neg (by omega),
          if_pos (by omega)]
        have hguard : (if 240 + c.toNat / 262144 = 240 then
              decide (144 ≤ 128 + c.toNat / 4096 % 64 ∧ 128 + c.toNat / 4096 % 64 ≤ 191)
            else if 240 + c.toNat / 262144 = 244 then
              decide (128 ≤ 128 + c.toNat / 4096 % 64 ∧ 128 + c.toNat / 4096 % 64 ≤ 143)
            else isCont (128 + c.toNat / 4096 % 64)) = true := by
          by_cases hb : 240 + c.toNat / 262144 = 240
          · rw [if_pos hb]
            simp only [decide_eq_true_eq]
            omega
          · rw [if_neg hb]
            by_cases hb2 : 240 + c.toNat / 262144 = 244
            · rw [if_pos hb2]
              simp only [decide_eq_true_eq]
              omega
            · rw [if_neg hb2]
              simp only [isCont, decide_eq_true_eq]
              omega
        simp only [hguard,
          show isCont (128 + c.toNat / 64 % 64) = true from
            by simp only [isCont, decide_eq_true_eq]; omega,
          show isCont (128 + c.toNat % 64) = true from
            by simp only [isCont, decide_eq_true_eq]; omega,
          Bool.and_self, if_true]
        rw [show (240 + c.toNat / 262144 - 240) * 262144 +
          (128 + c.toNat / 4096 % 64 - 128) * 4096 +
          (128 + c.toNat / 64 % 64 - 128) * 64 + (128 + c.toNat % 64 - 128) =
          c.toNat from by omega, Char.ofNat_toNat]

theorem utf8DecodeGo_encode :
    ∀ (s : JStr) (fuel : Nat), s.length ≤ fuel →
      utf8DecodeGo fuel (utf8Encode s) = some s
  | [], 0, _ => rfl
  | [], _ + 1, _ => rfl
  | c :: cs, 0, hf => by simp at hf
  | c :: cs, fuel + 1, hf => by
    obtain ⟨b, bs, henc, hdec⟩ := utf8EncodeChar_step c (utf8Encode cs)
    rw [utf8Encode, henc, List.cons_append, utf8DecodeGo]
    simp only [hdec]
    rw [utf8DecodeGo_encode cs fuel (by simpa using hf)]
    rfl

theorem utf8EncodeChar_ne_nil (c : Char) : utf8EncodeChar c ≠ [] := by
  rw [utf8EncodeChar]
  split
  · exact List.cons_ne_nil _ _
  · split
    · exact List.cons_ne_nil _ _
    · split
      · exact List.cons_ne_nil _ _
      · exact List.cons_ne_nil _ _

theorem utf8Encode_length_ge : ∀ s : JStr, s.length ≤ (utf8Encode s).length
  | [] => Nat.le_refl 0
  | c :: cs => by
    rw [utf8Encode, List.length_append, List.length_cons]
    have h1 : 1 ≤ (utf8EncodeChar c).length := by
      rcases he : utf8EncodeChar c with _ | ⟨b, bs⟩
      · exact absurd he (utf8EncodeChar_ne_nil c)
      · simp
    have h2 := utf8Encode_length_ge cs
    omega

theorem utf8Decode_encode (s : JStr) : utf8Decode (utf8Encode s) = some s :=
  utf8DecodeGo_encode s (utf8Encode s).length (utf8Encode_length_ge s)

/-! ## JSON round trip -/

theorem hexVal_hexDigit : ∀ d, d < 16 → hexVal (hexDigit d) = some d := by decide

theorem parseStringBody_qchar (c : Char) (f : Nat) (rem : JStr) :
    parseStringBody (f + 1) (qchar c ++ rem) =
      (parseStringBody f rem).map (fun p => (c :: p.1, p.2)) := by
  by_cases hq : c = '"'
  · subst hq; rfl
  · by_cases hb : c = '\\'
    · subst hb; rfl
    · by_cases h32 : c.toNat < 32
      · -- control characters: finitely many concrete code points
        obtain ⟨n, hn⟩ : ∃ n, c.toNat = n := ⟨c.toNat, rfl⟩
        rw [show c = Char.ofNat n from by rw [← hn, Char.ofNat_toNat]]
        rw [hn] at h32
        interval_cases n <;> rfl
      · rw [show qchar c = [c] from by
          rw [qchar.eq_def, if_neg hq, if_neg hb, if_neg h32]]
        rw [List.singleton_append]
        rcases rem with _ | ⟨e, rem2⟩
        · rw [parseStringBody, if_neg hq, if_neg hb, if_neg h32]
        · rw [parseStringBody, if_neg hq, if_neg hb, if_neg h32]

theorem qchar_length_pos (c : Char) : 1 ≤ (qchar c).length := by
  rw [qchar.eq_def]
  split
  · simp
  · split
    · simp
    · split
      · split <;> simp
      · simp

theorem quoteBody_length : ∀ s : JStr, s.length ≤ (quoteBody s).length
  | [] => Nat.le_refl 0
  | c :: cs => by
    rw [quoteBody, List.length_append, List.length_cons]
    have h1 := qchar_length_pos c
    have h2 := quoteBody_length cs
    omega

theorem parseStringBody_quoteBody :
    ∀ (s : JStr) (rem : JStr) (f : Nat), s.length < f →
      parseStringBody f (quoteBody s ++ '"' :: rem) = some (s, rem)
  | _, _, 0, hf => by omega
  | [], rem, f + 1, _ => by rw [quoteBody, List.nil_append]; rfl
  | c :: cs, rem, f + 1, hf => by
    rw [quoteBody, List.append_assoc, parseStringBody_qchar c f _,
      parseStringBody_quoteBody cs rem f (by simpa using hf)]
    rfl

theorem quoteStr_append (s rem : JStr) :
    quoteStr s ++ rem = '"' :: (quoteBody s ++ '"' :: rem) := by
  simp [quoteStr]

theorem parseValue_quoteStr (f : Nat) (s rem : JStr) :
    parseValue (f + 1) ('"' :: (quoteBody s ++ '"' :: rem)) =
      some (.jstr s, rem) := by
  rw [parseValue]
  simp only [show skipWs ('"' :: (quoteBody s ++ '"' :: rem)) =
    '"' :: (quoteBody s ++ '"' :: rem) from rfl]
  rw [if_pos trivial]
  rw [parseStringBody_quoteBody s rem _ (by
    have := quoteBody_length s
    rw [List.length_append, List.length_cons]
    omega)]
  rfl

theorem skipWs_cons (c : Char) (l : JStr) (h : isJsonWs c = false) :
    skipWs (c :: l) = c :: l := by
  rw [skipWs, List.dropWhile_cons, if_neg (by simp [h])]

theorem stringifyElems_length :
    ∀ ss : List JStr, ss.length ≤ (jsonStringifyElems (ss.map .jstr)).length
  | [] => by simp [jsonStringifyElems]
  | [s] => by
    simp only [List.map_cons, List.map_nil, List.length_cons, List.length_nil]
    rw [show jsonStringifyElems [Jval.jstr s] = quoteStr s from rfl, quoteStr]
    simp
  | s1 :: s2 :: ss => by
    simp only [List.map_cons, List.length_cons]
    rw [show jsonStringifyElems
        (Jval.jstr s1 :: Jval.jstr s2 :: List.map Jval.jstr ss) =
      quoteStr s1 ++ ',' ::
        jsonStringifyElems (Jval.jstr s2 :: List.map Jval.jstr ss) from rfl]
    have h2 := stringifyElems_length (s2 :: ss)
    simp only [List.map_cons, List.length_cons] at h2
    simp only [List.length_append, List.length_cons, List.length_nil]
    omega

theorem parseElems_stringify :
    ∀ (ss : List JStr) (rem : JStr) (f : Nat), ss ≠ [] → ss.length < f →
      parseElems f (jsonStringifyElems (ss.map .jstr) ++ ']' :: rem) =
        some (ss.map .jstr, rem)
  | [], _, _, h, _ => absurd rfl h
  | [s], _, 0, _, hf => by simp at hf
  | [s], rem, f + 1, _, hf => by
    simp only [List.map_cons, List.map_nil]
    rw [show jsonStringifyElems [Jval.jstr s] = quoteStr s from rfl]
    rw [quoteStr_append, parseElems]
    rcases f with _ | g
    · simp only [List.length_cons, List.length_nil] at hf
      omega
    · rw [parseValue_quoteStr]
      simp only [skipWs_cons ']' rem (by decide)]
  | s1 :: s2 :: ss, _, 0, _, hf => by simp at hf
  | s1 :: s2 :: ss, rem, f + 1, _, hf => by
    simp only [List.map_cons]
    rw [show jsonStringifyElems
        (Jval.jstr s1 :: Jval.jstr s2 :: List.map Jval.jstr ss) =
      quoteStr s1 ++ ',' ::
        jsonStringifyElems (Jval.jstr s2 :: List.map Jval.jstr ss) from rfl]
    rw [List.append_assoc, List.cons_append, quoteStr_append, parseElems]
    rcases f with _ | g
    · simp only [List.length_cons] at hf
      omega
    · rw [parseValue_quoteStr]
      simp only [skipWs_cons ',' _ (by decide)]
      have ih := parseElems_stringify (s2 :: ss) rem (g + 1) (List.cons_ne_nil s2 ss)
        (by simp only [List.length_cons]; simp only [List.length_cons] at hf; omega)
      simp only [List.map_cons] at ih
      rw [ih]
      rfl

theorem jsonParse_stringify_arr (ss : List JStr) :
    jsonParse (jsonStringify (.jarr (ss.map .jstr))) =
      some (.jarr (ss.map .jstr)) := by
  rcases ss with _ | ⟨s1, ss'⟩
  · rfl
  · obtain ⟨t, ht⟩ : ∃ t,
        jsonStringifyElems (List.map Jval.jstr (s1 :: ss')) = '"' :: t := by
      rcases ss' with _ | ⟨s2, ss''⟩
      · exact ⟨quoteBody s1 ++ ['"'],
          by rw [show jsonStringifyElems (List.map Jval.jstr [s1]) =
            quoteStr s1 from rfl, quoteStr, List.cons_append]⟩
      · exact ⟨quoteBody s1 ++ ['"'] ++ ',' ::
            jsonStringifyElems (List.map Jval.jstr (s2 :: ss'')),
          by rw [show jsonStringifyElems (List.map Jval.jstr (s1 :: s2 :: ss'')) =
            quoteStr s1 ++ ',' ::
              jsonStringifyElems (List.map Jval.jstr (s2 :: ss'')) from rfl,
            quoteStr, List.cons_append, List.cons_append, List.append_assoc]⟩
    rw [show jsonStringify (.jarr ((s1 :: ss').map .jstr)) =
      ('[' :: jsonStringifyElems ((s1 :: ss').map .jstr)) ++ [']'] from rfl]
    rw [jsonParse, parseValue, List.cons_append]
    rw [skipWs_cons '['
      (jsonStringifyElems (List.map Jval.jstr (s1 :: ss')) ++ [']']) (by decide)]
    simp only []
    rw [if_neg (by decide), if_pos trivial]
    have hpe := parseElems_stringify (s1 :: ss') []
      ('[' :: (jsonStringifyElems (List.map Jval.jstr (s1 :: ss')) ++ [']'])).length
      (List.cons_ne_nil s1 ss')
      (by
        have h1 := stringifyElems_length (s1 :: ss')
        simp only [List.length_cons, List.length_append, List.length_nil] at *
        omega)
    rw [ht, List.cons_append] at hpe ⊢
    rw [skipWs_cons '"' (t ++ [']']) (by decide)]
    rw [hpe]
    simp [skipWs]

/-! ## Sorting lemmas -/

theorem natListLe_total : ∀ a b : List Nat,
    natListLe a b = true ∨ natListLe b a = true
  | [], _ => Or.inl rfl
  | _ :: _, [] => Or.inr rfl
  | a :: as_, b :: bs => by
    rw [natListLe, natListLe]
    by_cases h1 : a < b
    · left; rw [if_pos h1]
    · by_cases h2 : b < a
      · right; rw [if_pos h2]
      · rcases natListLe_total as_ bs with h | h
        · left; rw [if_neg h1, if_neg h2]; exact h
        · right; rw [if_neg h2, if_neg h1]; exact h

theorem natListLe_trans : ∀ a b c : List Nat,
    natListLe a b = true → natListLe b c = true → natListLe a c = true
  | [], _, _, _, _ => rfl
  | a :: as_, [], _, h, _ => by rw [natListLe] at h; exact absurd h (by simp)
  | a :: as_, b :: bs, [], _, h2 => by rw [natListLe] at h2; exact absurd h2 (by simp)
  | a :: as_, b :: bs, c :: cs, h1, h2 => by
    rw [natListLe] at h1 h2 ⊢
    by_cases hab : a < b
    · rw [if_pos hab] at h1
      by_cases hbc : b < c
      · rw [if_pos (by omega)]
      · rw [if_neg hbc] at h2
        by_cases hcb : c < b
        · rw [if_pos hcb] at h2; exact absurd h2 (by simp)
        · rw [if_pos (by omega)]
    · rw [if_neg hab] at h1
      by_cases hba : b < a
      · rw [if_pos hba] at h1; exact absurd h1 (by simp)
      · rw [if_neg hba] at h1
        by_cases hbc : b < c
        · rw [if_pos (by omega)]
        · rw [if_neg hbc] at h2
          by_cases hcb : c < b
          · rw [if_pos hcb] at h2; exact absurd h2 (by simp)
          · rw [if_neg hcb] at h2
            rw [if_neg (by omega), if_neg (by omega)]
            exact natListLe_trans as_ bs cs h1 h2

theorem jvalLe_total (x y : Jval) : jvalLe x y = true ∨ jvalLe y x = true :=
  natListLe_total _ _

theorem jvalLe_trans (x y z : Jval) :
    jvalLe x y = true → jvalLe y z = true → jvalLe x z = true :=
  natListLe_trans _ _ _

theorem insertSorted_perm (x : Jval) : ∀ l, (insertSorted x l).Perm (x :: l)
  | [] => List.Perm.refl _
  | y :: ys => by
    rw [insertSorted]
    split
    · exact List.Perm.refl _
    · exact ((insertSorted_perm x ys).cons y).trans (List.Perm.swap x y ys)

theorem jsSortJ_perm : ∀ l : List Jval, (jsSortJ l).Perm l
  | [] => List.Perm.refl _
  | x :: xs =>
    (insertSorted_perm x (jsSortJ xs)).trans ((jsSortJ_perm xs).cons x)

theorem mem_insertSorted {z x : Jval} {l : List Jval} :
    z ∈ insertSorted x l ↔ z = x ∨ z ∈ l := by
  rw [(insertSorted_perm x l).mem_iff, List.mem_cons]

theorem pairwise_insertSorted (x : Jval) :
    ∀ l, l.Pairwise (fun a b => jvalLe a b = true) →
      (insertSorted x l).Pairwise (fun a b => jvalLe a b = true)
  | [], _ => by simp [insertSorted]
  | y :: ys, h => by
    rw [insertSorted]
    obtain ⟨hy, hys⟩ := List.pairwise_cons.mp h
    split
    · rename_i hxy
      refine List.pairwise_cons.mpr ⟨?_, h⟩
      intro z hz
      rcases List.mem_cons.mp hz with rfl | hz
      · exact hxy
      · exact jvalLe_trans x y z hxy (hy z hz)
    · rename_i hxy
      have hyx : jvalLe y x = true := by
        rcases jvalLe_total x y with ht | ht
        · exact absurd ht hxy
        · exact ht
      refine List.pairwise_cons.mpr ⟨?_, pairwise_insertSorted x ys hys⟩
      intro z hz
      rcases mem_insertSorted.mp hz with rfl | hz
      · exact hyx
      · exact hy z hz

theorem pairwise_jsSortJ : ∀ l : List Jval,
    (jsSortJ l).Pairwise (fun a b => jvalLe a b = true)
  | [] => List.Pairwise.nil
  | x :: xs => pairwise_insertSorted x (jsSortJ xs) (pairwise_jsSortJ xs)

theorem exists_map_of_all_jstr : ∀ l : List Jval,
    (∀ v ∈ l, ∃ s, v = Jval.jstr s) → ∃ ss : List JStr, l = ss.map Jval.jstr
  | [], _ => ⟨[], rfl⟩
  | v :: vs, h => by
    obtain ⟨s, rfl⟩ := h v (List.mem_cons_self v vs)
    obtain ⟨ss, rfl⟩ :=
      exists_map_of_all_jstr vs (fun w hw => h w (List.mem_cons_of_mem _ hw))
    exact ⟨s :: ss, rfl⟩

/-! ## The full encode/decode round trip -/

theorem atobModel_b64clean (bytes : List Nat) (h : ∀ x ∈ bytes, x < 256) :
    atobModel (b64clean bytes) = some bytes := by
  have hfil : (b64clean bytes).filter (fun c => !isB64Ws c) = b64clean bytes :=
    List.filter_eq_self.mpr (fun c hc => by
      obtain ⟨i, hi, rfl⟩ := mem_b64clean bytes h c hc
      simp [b64enc_not_ws i hi])
  have hnopad : dropTrailPad (b64clean bytes) = b64clean bytes :=
    dropTrailPad_no_eq _ (fun c hc => by
      obtain ⟨i, hi, rfl⟩ := mem_b64clean bytes h c hc
      exact b64enc_ne_eq i hi)
  obtain ⟨vs, hvs, hgr⟩ := b64_decode_clean bytes h
  rw [atobModel]
  simp only [hfil, hnopad, ite_self]
  rw [if_neg (b64clean_length_mod4 bytes), hvs]
  exact hgr

theorem encodeStarredJ_eq (ids : List Jval) (h : ids ≠ [])
    (hb : ∀ x ∈ utf8Encode (jsonStringify (.jarr (jsSortJ ids))), x < 256) :
    encodeStarredJ ids =
      (b64clean (utf8Encode (jsonStringify (.jarr (jsSortJ ids))))).map toUrlChar := by
  rw [encodeStarredJ, if_neg (by simp [h])]
  obtain ⟨k, hk, he⟩ :=
    btoa_eq_clean_pad (utf8Encode (jsonStringify (.jarr (jsSortJ ids))))
  rw [he, List.map_append, List.map_replicate, show toUrlChar '=' = '=' from rfl]
  refine stripEq_append_pad _ k ?_
  intro c hcm
  rw [List.mem_map] at hcm
  obtain ⟨c', hc', rfl⟩ := hcm
  obtain ⟨i, hi, rfl⟩ := mem_b64clean _ hb c' hc'
  exact toUrl_b64enc_ne_eq i hi

theorem utf8Encode_stringify_arr_shape (l : List Jval) :
    ∃ rest, utf8Encode (jsonStringify (.jarr l)) = 91 :: rest := by
  rw [show jsonStringify (.jarr l) =
    ('[' :: jsonStringifyElems l) ++ [']'] from rfl, List.cons_append, utf8Encode]
  exact ⟨_, rfl⟩

theorem b64clean_cons_ne_nil (a : Nat) (rest : List Nat) :
    b64clean (a :: rest) ≠ [] := by
  rcases rest with _ | ⟨b, rest⟩
  · simp [b64clean]
  · rcases rest with _ | ⟨c, rest⟩
    · simp [b64clean]
    · rw [b64clean.eq_def]
      simp

/-- **C6**.  Decoding the encoding of any non-empty set of identifier
strings yields exactly the sorted list of its (distinct) members;
encoding the empty array yields the empty string; and writing an empty
array clears the link slot entirely. -/
theorem encode_decode_roundtrip :
    (∀ l : List JStr, l ≠ [] → l.Nodup →
      decodeStarredJ (encodeStarredJ (l.map .jstr)) = jsSortJ (l.map .jstr) ∧
      (jsSortJ (l.map .jstr)).Perm (l.map .jstr) ∧
      (jsSortJ (l.map .jstr)).Pairwise (fun a b => jvalLe a b = true)) ∧
    encodeStarredJ [] = [] ∧
    (∀ w : World, (writeHash [] w).hashA = none) := by
  refine ⟨?_, rfl, fun w => rfl⟩
  intro l hne _
  have hperm := jsSortJ_perm (l.map .jstr)
  refine ⟨?_, hperm, pairwise_jsSortJ _⟩
  have hids : (l.map .jstr : List Jval) ≠ [] := by
    simp only [ne_eq, List.map_eq_nil_iff]
    exact hne
  have hb := utf8Encode_lt256 (jsonStringify (.jarr (jsSortJ (l.map .jstr))))
  rw [encodeStarredJ_eq (l.map .jstr) hids hb]
  obtain ⟨rest, hshape⟩ := utf8Encode_stringify_arr_shape (jsSortJ (l.map .jstr))
  have hnenil :
      ((b64clean (utf8Encode (jsonStringify (.jarr (jsSortJ (l.map .jstr)))))).map
        toUrlChar) ≠ [] := by
    rw [hshape]
    simp only [ne_eq, List.map_eq_nil_iff]
    exact b64clean_cons_ne_nil 91 rest
  rw [decodeStarredJ, if_neg hnenil]
  rw [map_fromUrl_toUrl_clean _ hb]
  simp only [atobModel_b64clean _ hb]
  simp only [utf8Decode_encode]
  obtain ⟨ss, hss⟩ : ∃ ss : List JStr,
      jsSortJ (l.map .jstr) = ss.map .jstr := by
    refine exists_map_of_all_jstr _ (fun v hv => ?_)
    have hv2 := hperm.mem_iff.mp hv
    rw [List.mem_map] at hv2
    obtain ⟨s, _, rfl⟩ := hv2
    exact ⟨s, rfl⟩
  rw [hss]
  simp only [jsonParse_stringify_arr]

/-- Witness for `encode_decode_roundtrip` on the set of identifiers
`{"s2","s1"}`. -/
theorem encode_decode_roundtrip_witness :
    decodeStarredJ (encodeStarredJ (["s2".data, "s1".data].map Jval.jstr)) =
      jsSortJ (["s2".data, "s1".data].map Jval.jstr) ∧
    (jsSortJ (["s2".data, "s1".data].map Jval.jstr)).Perm
      (["s2".data, "s1".data].map Jval.jstr) :=
  ⟨(encode_decode_roundtrip.1 ["s2".data, "s1".data]
      (List.cons_ne_nil _ _) (by decide)).1,
   (encode_decode_roundtrip.1 ["s2".data, "s1".data]
      (List.cons_ne_nil _ _) (by decide)).2.1⟩

/-- Witness for `decode_defensive`: a bad-alphabet string, a base64
payload whose JSON is not an array, and initialization over a malformed
storage payload. -/
theorem decode_defensive_witness :
    decodeStarredJ ['$', '$', '$'] = [] ∧
    decodeStarredJ ['N', 'Q'] = [] ∧
    (initStarred ⟨[], some "not json".data, none⟩).starred = [] :=
  ⟨(decode_defensive ['$', '$', '$']).1 rfl,
   (decode_defensive ['N', 'Q']).2.2.2.1 [53] ['5'] (Jval.jnum ['5']) rfl rfl rfl
     (fun _ hx => Jval.noConfusion hx),
   (decode_defensive []).2.2.2.2.2 ⟨[], some "not json".data, none⟩ "not json".data
     rfl rfl rfl⟩
